import Mathlib

/-!
Verification of the class-name classification and rewriting core of the
tailwind-prefix-bot repository.

Strings are modelled as `List Char`.  Every JS string and regex operation
used by the source is translated into an executable Lean function on
character lists; regular expressions are embedded by their matching
semantics (leftmost match, greedy quantifiers with backtracking) specialised
to the concrete patterns appearing in the source.
-/

/-- JS whitespace class `\s`, restricted to the ASCII range the model covers:
space, tab, newline, carriage return, vertical tab, form feed. -/
def isSpaceJS (c : Char) : Bool :=
  c = ' ' || c = '\t' || c = '\n' || c = '\r' || c = Char.ofNat 11 || c = Char.ofNat 12

/-- JS `String.prototype.includes`: `pat` occurs as a contiguous substring. -/
def isSubstr (pat : List Char) : List Char → Bool
  | [] => List.isPrefixOf pat []
  | c :: t => List.isPrefixOf pat (c :: t) || isSubstr pat t

/-- Split a string at its first `':'` : returns `(before, after)` with the
colon omitted, or `none` when the string has no colon. -/
def splitAtFirstColon : List Char → Option (List Char × List Char)
  | [] => none
  | c :: t =>
    if c = ':' then some ([], t)
    else
      match splitAtFirstColon t with
      | some (a, b) => some (c :: a, b)
      | none => none

/-- Split a string at its last `':'` : returns `(before, after)` where
`before` still ends with the colon (mirroring
`className.substring(0, lastColonIndex + 1)` / `substring(lastColonIndex + 1)`
in the source), or `none` when the string has no colon. -/
def splitAtLastColon : List Char → Option (List Char × List Char)
  | [] => none
  | c :: t =>
    match splitAtLastColon t with
    | some (a, b) => some (c :: a, b)
    | none => if c = ':' then some ([':'], t) else none

/-- `className.substring(className.lastIndexOf(':') + 1)` — the whole string
when there is no colon. -/
def afterLastColon (s : List Char) : List Char :=
  match splitAtLastColon s with
  | some (_, b) => b
  | none => s

/-- Strip a single leading `'!'` (the check
`classToCheck.startsWith('!')` + `substring(1)` in `isNotTailwindClass`). -/
def stripBang (s : List Char) : List Char :=
  if List.isPrefixOf ['!'] s then s.tail else s

/-- JS regex test `/[a-z][A-Z]/`: some lowercase ASCII letter immediately
followed by an uppercase ASCII letter. -/
def hasCamelCase : List Char → Bool
  | [] => false
  | [_] => false
  | a :: b :: t => (a.isLower && b.isUpper) || hasCamelCase (b :: t)

/-- Head satisfies a predicate (JS `/^[A-Z]/`, `/^\d/`). -/
def headIs (p : Char → Bool) : List Char → Bool
  | [] => false
  | c :: _ => p c

/-- The framework-reserved name patterns of `isNotTailwindClass`
(JS regex `/^(ng-|v-|data-|aria-|role-)/`). -/
def frameworkPats : List (List Char) :=
  ["ng-".toList, "v-".toList, "data-".toList, "aria-".toList, "role-".toList]

/-- `isNotTailwindClass` from the source: decides that a token is NOT a
Tailwind utility class (and hence must be left unmodified).
`ign` models `this.ignoreClasses`. -/
def isNotTailwindClass (ign : List (List Char)) (className : List Char) : Bool :=
  let classToCheck := stripBang (afterLastColon className)
  if ign.contains classToCheck then true
  else
    let hasCamel := hasCamelCase classToCheck
    let hasSnake := classToCheck.contains '_' && !(classToCheck.contains '[')
    let isCustomClass := headIs Char.isUpper classToCheck
        || isSubstr "__".toList classToCheck
        || headIs Char.isDigit classToCheck
        || decide (classToCheck.length < 2)
    let isFrameworkClass := frameworkPats.any (fun p => List.isPrefixOf p classToCheck)
    hasCamel || hasSnake || isCustomClass || isFrameworkClass

/-- One attempt of the JS regex `^(.*MOD[^:]*:)(.+)$` with the `MOD` literal
anchored at the current position: `MOD` must start here, `[^:]*:` then runs to
the first colon at or after the end of `MOD` (a shorter run would demand an
immediate colon inside an all-non-colon run, so only the maximal run can
succeed), and `(.+)` requires a non-empty remainder.  Returns (capture 1,
capture 2). -/
def matchModHere (mod s : List Char) : Option (List Char × List Char) :=
  if List.isPrefixOf mod s then
    match splitAtFirstColon (s.drop mod.length) with
    | some (a, rest) => if rest = [] then none else some (mod ++ a ++ [':'], rest)
    | none => none
  else none

/-- Full match of `^(.*MOD[^:]*:)(.+)$`: the greedy leading `.*` makes the
engine try the rightmost viable start of the `MOD` literal first. -/
def matchMod (mod : List Char) : List Char → Option (List Char × List Char)
  | [] => matchModHere mod []
  | c :: t =>
    match matchMod mod t with
    | some (p, r) => some (c :: p, r)
    | none => matchModHere mod (c :: t)

/-- Recursion core of `addPrefixToClass`.  The JS function recurses on the
second capture of the group- or peer- regex, which is strictly shorter than its
argument, so recursion depth is bounded by the string length; `fuel` is that
bound (the `fuel = 0` case is unreachable from `addPrefixToClass`, where the
argument is then `[]` and is returned unchanged exactly as the source does). -/
def addPrefixGo (pfx : List Char) (ign : List (List Char)) : Nat → List Char → List Char
  | 0, s => s
  | fuel + 1, s =>
    -- Skip if already prefixed
    if isSubstr pfx s then s
    -- Skip non-Tailwind classes
    else if isNotTailwindClass ign s then s
    else
      -- Handle group modifiers: group-hover:opacity-50 -> group-hover:tw-opacity-50
      match (if isSubstr "group-".toList s then matchMod "group-".toList s else none) with
      | some (p, r) => p ++ addPrefixGo pfx ign fuel r
      | none =>
        -- Handle peer modifiers: peer-focus:opacity-50 -> peer-focus:tw-opacity-50
        match (if isSubstr "peer-".toList s then matchMod "peer-".toList s else none) with
        | some (p, r) => p ++ addPrefixGo pfx ign fuel r
        | none =>
          match splitAtLastColon s with
          | none =>
            -- No colons - simple class; `startsWith('!')` handles negation
            if List.isPrefixOf ['!'] s then '!' :: (pfx ++ s.tail)
            else pfx ++ s
          | some (beforeLastColon, afterColon) =>
            -- Has colons - get the part after the last colon
            if List.isPrefixOf ['!'] afterColon then
              beforeLastColon ++ '!' :: (pfx ++ afterColon.tail)
            else beforeLastColon ++ pfx ++ afterColon

/-- `addPrefixToClass` from the source.  `pfx` models `this.prefix`,
`ign` models `this.ignoreClasses`. -/
def addPrefixToClass (pfx : List Char) (ign : List (List Char)) (s : List Char) : List Char :=
  addPrefixGo pfx ign s.length s

/-- The default `this.ignoreClasses` of the source constructor. -/
def defaultIgnore : List (List Char) :=
  ["swiper".toList, "swiper-wrapper".toList, "swiper-slide".toList]

/-! ## Extractors

Each extractor is a global regex replace: scan the text left to right, at each
position try the region pattern; on a match emit the callback's output and
resume after the match, otherwise emit the character unchanged.  The scanners
consume at least one character per step, so `fuel = length of the text` bounds
the number of steps; the `fuel = 0` case is only reached on empty remainders.
-/

/-- Match a literal case-insensitively (JS `/i` flag; the literals used are
ASCII) and return the remainder. -/
def matchLitCI : List Char → List Char → Option (List Char)
  | [], s => some s
  | _, [] => none
  | p :: ps, c :: cs => if p.toLower = c.toLower then matchLitCI ps cs else none

/-- Match a literal case-sensitively (regexes without the `/i` flag) and
return the remainder. -/
def matchLit : List Char → List Char → Option (List Char)
  | [], s => some s
  | _, [] => none
  | p :: ps, c :: cs => if p = c then matchLit ps cs else none

/-- The quote class `["']` of the html class-attribute regex. -/
def isQuoteH (c : Char) : Bool := c = '"' || c = '\''

/-- Match the html attribute regex `class\s*=\s*["']([^"']*(?:\\.[^"']*)*)["']`
at the current position; returns `(match, capture, rest)`.  Under first-success
backtracking the inner escape alternation is unreachable: the greedy `[^"']*`
always stops at the first quote character or at end of input, a continuation
with `\\.` would need a backslash there, and closing at that first quote
already succeeds.  So the capture is the maximal quote-free run after the
opening quote and the match ends at the first following quote (of either
kind); with no closing quote there is no match. -/
def matchHtmlAt (s : List Char) : Option (List Char × List Char × List Char) :=
  match matchLitCI "class".toList s with
  | none => none
  | some s1 =>
    match s1.dropWhile isSpaceJS with
    | [] => none
    | c2 :: s3 =>
      if c2 = '=' then
        match s3.dropWhile isSpaceJS with
        | [] => none
        | q :: s5 =>
          if isQuoteH q then
            let v := s5.takeWhile (fun c => !isQuoteH c)
            match s5.drop v.length with
            | _ :: rest => some (s.take (s.length - rest.length), v, rest)
            | [] => none
          else none
      else none

/-- JS `classString.split(/\s+/).filter(c => c.length > 0)`: the maximal
whitespace-free runs, via an accumulator for the current run (reversed). -/
def splitWsAux : List Char → List Char → List (List Char)
  | acc, [] => if acc.isEmpty then [] else [acc.reverse]
  | acc, c :: t =>
    if isSpaceJS c then
      if acc.isEmpty then splitWsAux [] t else acc.reverse :: splitWsAux [] t
    else splitWsAux (c :: acc) t

def splitWs (s : List Char) : List (List Char) := splitWsAux [] s

/-- `classes.join(' ')`. -/
def joinSpace (xs : List (List Char)) : List Char := List.intercalate [' '] xs

/-- ECMAScript GetSubstitution for a string-pattern `replace` with a string
replacement: expand the dollar templates of the replacement.  `matched` is the
matched substring (for a string pattern, the search string itself), `pre` the
part of the subject before the match and `post` the part after it.  A string
pattern has no capture groups and no named captures, so the `$n`, `$nn` and
`$<` templates pass through literally, which coincides with treating their
dollar as a literal character. -/
def getSubstitution (matched pre post : List Char) : List Char → List Char
  | [] => []
  | d :: rest =>
    if d = '$' then
      match rest with
      | [] => ['$']
      | c :: rest2 =>
        if c = '$' then '$' :: getSubstitution matched pre post rest2
        else if c = '&' then matched ++ getSubstitution matched pre post rest2
        else if c = Char.ofNat 96 then pre ++ getSubstitution matched pre post rest2
        else if c = '\'' then post ++ getSubstitution matched pre post rest2
        else '$' :: c :: getSubstitution matched pre post rest2
    else d :: getSubstitution matched pre post rest

/-- Position of the first occurrence of `pat`, as the split
`(before, after)` around it (an empty `pat` matches at position 0). -/
def findFirst (pat : List Char) : List Char → Option (List Char × List Char)
  | [] => if List.isPrefixOf pat [] then some ([], []) else none
  | c :: t =>
    if List.isPrefixOf pat (c :: t) then some ([], (c :: t).drop pat.length)
    else
      match findFirst pat t with
      | some (u, w) => some (c :: u, w)
      | none => none

/-- JS `String.prototype.replace` with a string pattern and a string
replacement: replace the first occurrence of `pat`, expanding the dollar
templates of `repl` via GetSubstitution. -/
def replaceFirst (pat repl : List Char) (s : List Char) : List Char :=
  match findFirst pat s with
  | some (u, w) => u ++ (getSubstitution pat u w repl ++ w)
  | none => s

/-- The replacement callback of `processHtmlClasses`: split the captured value
on whitespace, rewrite each token, rejoin with single spaces, and splice the
result back with `match.replace(classString, newClassString)`. -/
def htmlCallback (pfx : List Char) (ign : List (List Char)) (mt v : List Char) : List Char :=
  replaceFirst v (joinSpace ((splitWs v).map (addPrefixToClass pfx ign))) mt

def replaceHtmlGo (pfx : List Char) (ign : List (List Char)) : Nat → List Char → List Char
  | 0, s => s
  | fuel + 1, s =>
    match s with
    | [] => []
    | c :: t =>
      match matchHtmlAt s with
      | some (mt, v, rest) => htmlCallback pfx ign mt v ++ replaceHtmlGo pfx ign fuel rest
      | none => c :: replaceHtmlGo pfx ign fuel t

/-- `processHtmlClasses` from the source (the `stats` counter, which only
feeds logging, is not modelled). -/
def processHtmlClasses (pfx : List Char) (ign : List (List Char)) (content : List Char) :
    List Char :=
  replaceHtmlGo pfx ign content.length content

/-- Opening delimiter class of the className regex: one of `{ " ' `` ` ``. -/
def jsOpen (c : Char) : Bool :=
  c = Char.ofNat 123 || c = '"' || c = '\'' || c = Char.ofNat 96

/-- Characters ending the className value capture `[^"'`+"`"+`}]*`:
quote, apostrophe, backtick or closing brace. -/
def jsValStop (c : Char) : Bool :=
  c = '"' || c = '\'' || c = Char.ofNat 96 || c = Char.ofNat 125

/-- Match the script attribute regex
`className\s*=\s*[{"'\x60]([^"'\x60}]*)[}"'\x60]` at the current position;
returns `(match, capture, rest)`.  The capture is a possibly empty maximal run
free of the closing delimiters, and the match ends at the first following
closing delimiter. -/
def matchJsAt (s : List Char) : Option (List Char × List Char × List Char) :=
  match matchLitCI "className".toList s with
  | none => none
  | some s1 =>
    match s1.dropWhile isSpaceJS with
    | [] => none
    | c2 :: s3 =>
      if c2 = '=' then
        match s3.dropWhile isSpaceJS with
        | [] => none
        | q :: s5 =>
          if jsOpen q then
            let v := s5.takeWhile (fun c => !jsValStop c)
            match s5.drop v.length with
            | _ :: rest => some (s.take (s.length - rest.length), v, rest)
            | [] => none
          else none
      else none

/-- The replacement callback of `processJsClasses`: leave the whole match
untouched when the captured value contains `$\x7b` (template interpolation) or
`?` (conditional); otherwise rewrite tokens like the html callback. -/
def jsCallback (pfx : List Char) (ign : List (List Char)) (mt v : List Char) : List Char :=
  if isSubstr "$\x7b".toList v || v.contains '?' then mt
  else replaceFirst v (joinSpace ((splitWs v).map (addPrefixToClass pfx ign))) mt

def replaceJsGo (pfx : List Char) (ign : List (List Char)) : Nat → List Char → List Char
  | 0, s => s
  | fuel + 1, s =>
    match s with
    | [] => []
    | c :: t =>
      match matchJsAt s with
      | some (mt, v, rest) => jsCallback pfx ign mt v ++ replaceJsGo pfx ign fuel rest
      | none => c :: replaceJsGo pfx ign fuel t

/-- `processJsClasses` from the source. -/
def processJsClasses (pfx : List Char) (ign : List (List Char)) (content : List Char) :
    List Char :=
  replaceJsGo pfx ign content.length content

/-- The stop class `[;{}]` of the `@apply` regex capture. -/
def isApplyStop (c : Char) : Bool :=
  c = ';' || c = Char.ofNat 123 || c = Char.ofNat 125

/-- Match `@apply\s+([^;{}]+);?` at the current position; returns
`(capture, rest)` (the replacement is built fresh, so the match text itself is
not needed).  `\s+` is greedy; when the character right after the whitespace
run cannot start `[^;{}]+` (a `;`, brace, or end of input) the engine gives
one whitespace character back, which then forms the capture by itself. -/
def matchApplyAt (s : List Char) : Option (List Char × List Char) :=
  match matchLit "@apply".toList s with
  | none => none
  | some s1 =>
    let w := s1.takeWhile isSpaceJS
    let r := s1.drop w.length
    if w.isEmpty then none
    else
      match r with
      | [] => if 2 ≤ w.length then some (w.drop (w.length - 1), []) else none
      | c :: t =>
        if isApplyStop c then
          if 2 ≤ w.length then
            if c = ';' then some (w.drop (w.length - 1), t)
            else some (w.drop (w.length - 1), r)
          else none
        else
          let v := r.takeWhile (fun d => !isApplyStop d)
          match r.drop v.length with
          | [] => some (v, [])
          | c2 :: rest => if c2 = ';' then some (v, rest) else some (v, c2 :: rest)

/-- The replacement of `processApplyDirectives`: tokens containing a brace are
kept verbatim, the rest are rewritten, and the region becomes
`@apply <tokens>;`. -/
def applyCallback (pfx : List Char) (ign : List (List Char)) (v : List Char) : List Char :=
  "@apply ".toList ++
    joinSpace ((splitWs v).map (fun cn =>
      if cn.contains (Char.ofNat 123) || cn.contains (Char.ofNat 125) then cn
      else addPrefixToClass pfx ign cn)) ++ [';']

def replaceApplyGo (pfx : List Char) (ign : List (List Char)) : Nat → List Char → List Char
  | 0, s => s
  | fuel + 1, s =>
    match s with
    | [] => []
    | c :: t =>
      match matchApplyAt s with
      | some (v, rest) => applyCallback pfx ign v ++ replaceApplyGo pfx ign fuel rest
      | none => c :: replaceApplyGo pfx ign fuel t

/-- The first replace pass of `processApplyDirectives`. -/
def replaceApplyCore (pfx : List Char) (ign : List (List Char)) (content : List Char) :
    List Char :=
  replaceApplyGo pfx ign content.length content

/-- The final `.replace(/;;+/g, ';')` pass: every maximal run of two or more
semicolons becomes a single semicolon. -/
def collapseSemisGo : Nat → List Char → List Char
  | 0, s => s
  | _ + 1, [] => []
  | fuel + 1, c :: t =>
    if c = ';' ∧ t.head? = some ';' then
      ';' :: collapseSemisGo fuel (t.dropWhile (fun d => d = ';'))
    else c :: collapseSemisGo fuel t

def collapseSemis (s : List Char) : List Char := collapseSemisGo s.length s

/-- `processApplyDirectives` from the source. -/
def processApplyDirectives (pfx : List Char) (ign : List (List Char)) (content : List Char) :
    List Char :=
  collapseSemis (replaceApplyCore pfx ign content)

/-- The identifier class `[a-zA-Z0-9_-]` of the selector regex. -/
def isSelChar (c : Char) : Bool := c.isAlpha || c.isDigit || c = '_' || c = '-'

/-- The lookbehind `(?<=^|[\s,{])` of the selector regex: position 0, or the
previous character is whitespace, a comma, or an opening brace (`^` with the
`m` flag matches after a newline, which the `\s` class already covers). -/
def lookbehindOk : Option Char → Bool
  | none => true
  | some c => isSpaceJS c || c = ',' || c = Char.ofNat 123

/-- The replacement callback of `processCssSelectors`: keep `.name` when the
identifier is in the ignore list or already starts with the prefix string,
otherwise insert the prefix after the dot.  The full `isNotTailwindClass`
classifier is not consulted on this path. -/
def cssSelCallback (pfx : List Char) (ign : List (List Char)) (run : List Char) : List Char :=
  if ign.contains run then '.' :: run
  else if List.isPrefixOf pfx run then '.' :: run
  else '.' :: (pfx ++ run)

/-- Scanner for `processCssSelectors`; `prev` is the original character before
the current position (`none` at position 0), used by the lookbehind. -/
def replaceCssSelGo (pfx : List Char) (ign : List (List Char)) :
    Nat → Option Char → List Char → List Char
  | 0, _, s => s
  | fuel + 1, prev, s =>
    match s with
    | [] => []
    | c :: t =>
      if c = '.' && lookbehindOk prev then
        let run := t.takeWhile isSelChar
        if run.isEmpty then '.' :: replaceCssSelGo pfx ign fuel (some '.') t
        else
          -- `run` is non-empty here, so `run.getLast?` is the original
          -- character just before the resumption point.
          cssSelCallback pfx ign run ++
            replaceCssSelGo pfx ign fuel run.getLast? (t.drop run.length)
      else c :: replaceCssSelGo pfx ign fuel (some c) t

/-- `processCssSelectors` from the source. -/
def processCssSelectors (pfx : List Char) (ign : List (List Char)) (content : List Char) :
    List Char :=
  replaceCssSelGo pfx ign content.length none content

/-! ## Configuration validation (`validateOptions`) -/

/-- A JS option value as far as `validateOptions` can distinguish them:
absent (`undefined`), a string, or a non-string value of which only the
truthiness matters. -/
inductive JsArg
  | absent
  | jstr (s : List Char)
  | nonString (truthy : Bool)
deriving DecidableEq

/-- JS truthiness of an option value (an empty string is falsy). -/
def JsArg.truthy : JsArg → Bool
  | .absent => false
  | .jstr s => !s.isEmpty
  | .nonString t => t

def JsArg.isString : JsArg → Bool
  | .jstr _ => true
  | _ => false

/-- The three option fields `validateOptions` inspects. -/
structure Options where
  pfx : JsArg
  sourceDir : JsArg
  logLevel : JsArg
deriving DecidableEq

/-- JS `s.replace` with the regex "dash at end of string": strip one trailing
hyphen. -/
def stripTrailingDash (s : List Char) : List Char :=
  match s.getLast? with
  | some '-' => s.dropLast
  | _ => s

/-- The test `/^[a-zA-Z0-9_-]+$/` applied to the prefix after stripping a
trailing hyphen. -/
def prefixRegexOk (s : List Char) : Bool :=
  let s2 := stripTrailingDash s
  !s2.isEmpty && s2.all isSelChar

/-- The log-level enumeration of `validateOptions`. -/
def logLevelNames : List (List Char) :=
  ["silent".toList, "error".toList, "warn".toList, "info".toList, "debug".toList]

/-- First guard of `validateOptions`: a truthy prefix that is not a string. -/
def pfxNotString (o : Options) : Bool :=
  o.pfx.truthy && !o.pfx.isString

/-- Second guard: a truthy string prefix failing the regex test (reached only
when the first guard did not fire, so the non-string case is `false` here). -/
def pfxBadFormat (o : Options) : Bool :=
  match o.pfx with
  | .jstr s => !s.isEmpty && !prefixRegexOk s
  | _ => false

/-- Third guard: a truthy sourceDir that is not a string. -/
def sourceDirNotString (o : Options) : Bool :=
  o.sourceDir.truthy && !o.sourceDir.isString

/-- Fourth guard: a truthy logLevel that is not one of the five names. -/
def logLevelBad (o : Options) : Bool :=
  o.logLevel.truthy && !(match o.logLevel with
    | .jstr s => logLevelNames.contains s
    | _ => false)

/-- `validateOptions` from the source: the sequence of four guarded throws.
Each guard is reached only when the earlier ones did not fire, exactly as in
the JS `if` chain. -/
def validateOptions (o : Options) : Except (List Char) Unit :=
  if pfxNotString o then
    .error "prefix must be a string".toList
  else if pfxBadFormat o then
    .error "prefix must contain only alphanumeric characters, hyphens, and underscores".toList
  else if sourceDirNotString o then
    .error "sourceDir must be a string".toList
  else if logLevelBad o then
    .error "logLevel must be one of: silent, error, warn, info, debug".toList
  else
    .ok ()

/-- Whether construction rejects the options. -/
def validateThrows (o : Options) : Bool :=
  match validateOptions o with
  | .error _ => true
  | .ok _ => false

/-! ## Basic lemmas -/

theorem isSubstr_iff {pat s : List Char} : isSubstr pat s = true ↔ pat <:+: s := by
  induction s with
  | nil => simp [isSubstr, List.isPrefixOf_iff_prefix, List.prefix_nil, List.infix_nil]
  | cons c t ih =>
    simp only [isSubstr, Bool.or_eq_true, List.isPrefixOf_iff_prefix, ih,
      List.infix_cons_iff]

theorem isSubstr_mono {pat s t : List Char} (h : s <:+: t)
    (ht : isSubstr pat t = false) : isSubstr pat s = false := by
  cases hb : isSubstr pat s with
  | false => rfl
  | true =>
    have h2 : isSubstr pat t = true := isSubstr_iff.mpr ((isSubstr_iff.mp hb).trans h)
    rw [ht] at h2
    cases h2

theorem splitAtFirstColon_eq : ∀ {s a b : List Char},
    splitAtFirstColon s = some (a, b) → a ++ ':' :: b = s ∧ ':' ∉ a := by
  intro s
  induction s with
  | nil => intro a b h; simp [splitAtFirstColon] at h
  | cons c t ih =>
    intro a b h
    by_cases hc : c = ':'
    · subst hc
      simp only [splitAtFirstColon, if_pos rfl, Option.some.injEq, Prod.mk.injEq] at h
      obtain ⟨rfl, rfl⟩ := h
      simp
    · cases hsp : splitAtFirstColon t with
      | none => simp [splitAtFirstColon, if_neg hc, hsp] at h
      | some p =>
        obtain ⟨a', b'⟩ := p
        simp only [splitAtFirstColon, if_neg hc, hsp, Option.some.injEq,
          Prod.mk.injEq] at h
        obtain ⟨rfl, rfl⟩ := h
        obtain ⟨ih1, ih2⟩ := ih hsp
        refine ⟨by simpa using ih1, ?_⟩
        intro hmem
        rcases List.mem_cons.mp hmem with h3 | h3
        · exact hc h3.symm
        · exact ih2 h3

theorem splitAtLastColon_none_of : ∀ {s : List Char},
    ':' ∉ s → splitAtLastColon s = none := by
  intro s
  induction s with
  | nil => intro _; rfl
  | cons c t ih =>
    intro h
    have hc : ¬ (c = ':') := fun hc => h (hc ▸ List.mem_cons_self c t)
    have ht : ':' ∉ t := fun hm => h (List.mem_cons_of_mem c hm)
    simp only [splitAtLastColon, ih ht]
    rw [if_neg hc]

theorem splitAtLastColon_eq : ∀ {s a b : List Char},
    splitAtLastColon s = some (a, b) → a ++ b = s ∧ a.getLast? = some ':' ∧ ':' ∉ b := by
  intro s
  induction s with
  | nil => intro a b h; simp [splitAtLastColon] at h
  | cons c t ih =>
    intro a b h
    cases hsp : splitAtLastColon t with
    | some p =>
      obtain ⟨a', b'⟩ := p
      simp only [splitAtLastColon, hsp, Option.some.injEq, Prod.mk.injEq] at h
      obtain ⟨rfl, rfl⟩ := h
      obtain ⟨ih1, ih2, ih3⟩ := ih hsp
      refine ⟨by simpa using ih1, ?_, ih3⟩
      rcases a' with _ | ⟨x, xs⟩
      · simp at ih2
      · simpa using ih2
    | none =>
      by_cases hc : c = ':'
      · subst hc
        simp only [splitAtLastColon, hsp, if_pos rfl, Option.some.injEq,
          Prod.mk.injEq] at h
        obtain ⟨rfl, rfl⟩ := h
        refine ⟨rfl, rfl, ?_⟩
        intro hmem
        -- t has no colon since splitAtLastColon t = none
        revert hsp
        clear ih
        induction t with
        | nil => simp at hmem
        | cons y ys ihy =>
          intro hy
          cases hz : splitAtLastColon ys with
          | some p => simp [splitAtLastColon, hz] at hy
          | none =>
            simp only [splitAtLastColon, hz] at hy
            rcases List.mem_cons.mp hmem with h3 | h3
            · rw [if_pos h3.symm] at hy; cases hy
            · by_cases hyc : y = ':'
              · rw [if_pos hyc] at hy; cases hy
              · exact ihy h3 hz
      · simp [splitAtLastColon, hsp, if_neg hc] at h

theorem splitAtLastColon_append_aux {b : List Char} (hb : ':' ∉ b) :
    ∀ u : List Char, splitAtLastColon (u ++ ':' :: b) = some (u ++ [':'], b) := by
  intro u
  induction u with
  | nil =>
    simp [List.nil_append, splitAtLastColon, splitAtLastColon_none_of hb]
  | cons c u ih =>
    simp only [List.cons_append, splitAtLastColon, List.append_eq]
    rw [ih]

theorem splitAtLastColon_append {m b : List Char}
    (hm : m.getLast? = some ':') (hb : ':' ∉ b) :
    splitAtLastColon (m ++ b) = some (m, b) := by
  obtain ⟨u, rfl⟩ : ∃ u, m = u ++ [':'] := by
    rcases m with _ | ⟨x, xs⟩
    · simp at hm
    · exact ⟨(x :: xs).dropLast, by
        conv_lhs => rw [← List.dropLast_append_getLast (l := x :: xs) (by simp)]
        rw [List.getLast?_eq_getLast (x :: xs) (by simp)] at hm
        rw [Option.some.inj hm]⟩
  rw [List.append_assoc, List.singleton_append]
  exact splitAtLastColon_append_aux hb u

theorem afterLastColon_append {m b : List Char}
    (hm : m = [] ∨ m.getLast? = some ':') (hb : ':' ∉ b) :
    afterLastColon (m ++ b) = b := by
  rcases hm with rfl | hm
  · simp only [List.nil_append, afterLastColon, splitAtLastColon_none_of hb]
  · simp only [afterLastColon, splitAtLastColon_append hm hb]

theorem isNotTailwindClass_append {ign : List (List Char)} {m b : List Char}
    (hm : m = [] ∨ m.getLast? = some ':') (hb : ':' ∉ b) :
    isNotTailwindClass ign (m ++ b) = isNotTailwindClass ign b := by
  have h1 : afterLastColon (m ++ b) = b := afterLastColon_append hm hb
  have h2 : afterLastColon b = b := afterLastColon_append (Or.inl rfl) hb
  simp only [isNotTailwindClass, h1, h2]

theorem matchModHere_eq {mod s p r : List Char}
    (h : matchModHere mod s = some (p, r)) :
    p ++ r = s ∧ p ≠ [] ∧ p.getLast? = some ':' ∧ r ≠ [] := by
  by_cases hpre : List.isPrefixOf mod s = true
  · have hps : mod <+: s := List.isPrefixOf_iff_prefix.mp hpre
    obtain ⟨t', rfl⟩ := hps
    simp only [matchModHere, if_pos hpre, List.drop_left] at h
    cases hsp : splitAtFirstColon t' with
    | none => rw [hsp] at h; cases h
    | some q =>
      obtain ⟨a, rest⟩ := q
      simp only [hsp] at h
      by_cases hrest : rest = []
      · rw [if_pos hrest] at h; cases h
      · rw [if_neg hrest] at h
        simp only [Option.some.injEq, Prod.mk.injEq] at h
        obtain ⟨rfl, rfl⟩ := h
        obtain ⟨hsp1, _⟩ := splitAtFirstColon_eq hsp
        refine ⟨?_, by simp, ?_, hrest⟩
        · rw [List.append_assoc, List.append_assoc]
          simp only [List.singleton_append]
          rw [hsp1]
        · exact List.getLast?_concat _
  · simp [matchModHere, hpre] at h

theorem matchMod_eq : ∀ {s p r : List Char} {mod : List Char},
    matchMod mod s = some (p, r) →
    p ++ r = s ∧ p ≠ [] ∧ p.getLast? = some ':' ∧ r ≠ [] := by
  intro s
  induction s with
  | nil => intro p r mod h; exact matchModHere_eq h
  | cons c t ih =>
    intro p r mod h
    cases hm : matchMod mod t with
    | some q =>
      obtain ⟨p', r'⟩ := q
      simp only [matchMod, hm, Option.some.injEq, Prod.mk.injEq] at h
      obtain ⟨rfl, rfl⟩ := h
      obtain ⟨ih1, ih2, ih3, ih4⟩ := ih hm
      refine ⟨by simpa using ih1, by simp, ?_, ih4⟩
      rcases p' with _ | _
      · exact absurd rfl ih2
      · simpa using ih3
    | none =>
      simp only [matchMod, hm] at h
      exact matchModHere_eq h

theorem matchMod_length {mod s p r : List Char} (h : matchMod mod s = some (p, r)) :
    r.length < s.length := by
  obtain ⟨h1, h2, _, _⟩ := matchMod_eq h
  rw [← h1, List.length_append]
  have : 0 < p.length := List.length_pos.mpr h2
  omega

/-! ## Lemmas about the rewriter -/

theorem isNotTailwindClass_nil {ign : List (List Char)} :
    isNotTailwindClass ign [] = true := by
  cases h : ign.contains [] <;>
    simp [isNotTailwindClass, afterLastColon, splitAtLastColon, stripBang, h]

theorem addPrefixGo_nil {pfx : List Char} {ign : List (List Char)} :
    ∀ fuel, addPrefixGo pfx ign fuel [] = [] := by
  intro fuel
  cases fuel with
  | zero => rfl
  | succ fuel =>
    cases h : isSubstr pfx [] <;>
      simp [addPrefixGo, h, isNotTailwindClass_nil]

/-- The fuel argument of `addPrefixGo` is irrelevant once it is at least the
length of the input: the JS recursion never runs out of fuel, i.e. it
terminates on every input. -/
theorem addPrefixGo_fuel_irrel {pfx : List Char} {ign : List (List Char)} :
    ∀ f1 f2 s, s.length ≤ f1 → s.length ≤ f2 →
      addPrefixGo pfx ign f1 s = addPrefixGo pfx ign f2 s := by
  intro f1
  induction f1 with
  | zero =>
    intro f2 s h1 _
    have : s = [] := List.eq_nil_of_length_eq_zero (Nat.le_zero.mp h1)
    subst this
    rw [addPrefixGo_nil, addPrefixGo_nil]
  | succ f1 ih =>
    intro f2 s h1 h2
    cases s with
    | nil => rw [addPrefixGo_nil, addPrefixGo_nil]
    | cons c t =>
      cases f2 with
      | zero => simp at h2
      | succ f2 =>
        cases hg : (if isSubstr "group-".toList (c :: t) then
            matchMod "group-".toList (c :: t) else none) with
        | some q =>
          obtain ⟨p, r⟩ := q
          have hmm : matchMod "group-".toList (c :: t) = some (p, r) := by
            by_cases hs : isSubstr "group-".toList (c :: t) = true
            · rwa [if_pos hs] at hg
            · rw [if_neg hs] at hg; cases hg
          have hlt : r.length < (c :: t).length := matchMod_length hmm
          have hIH : addPrefixGo pfx ign f1 r = addPrefixGo pfx ign f2 r :=
            ih f2 r (by omega) (by omega)
          simp only [addPrefixGo, hg, hIH]
        | none =>
          cases hp : (if isSubstr "peer-".toList (c :: t) then
              matchMod "peer-".toList (c :: t) else none) with
          | some q =>
            obtain ⟨p, r⟩ := q
            have hmm : matchMod "peer-".toList (c :: t) = some (p, r) := by
              by_cases hs : isSubstr "peer-".toList (c :: t) = true
              · rwa [if_pos hs] at hp
              · rw [if_neg hs] at hp; cases hp
            have hlt : r.length < (c :: t).length := matchMod_length hmm
            have hIH : addPrefixGo pfx ign f1 r = addPrefixGo pfx ign f2 r :=
              ih f2 r (by omega) (by omega)
            simp only [addPrefixGo, hg, hp, hIH]
          | none => simp only [addPrefixGo, hg, hp]

/-- Decomposition of a successful group- or peer- match on a token
`m ++ b` where all colons lie in `m` (which ends with a colon if non-empty):
the first capture takes whole colon-terminated pieces of `m`, the second is
the remaining piece of `m` followed by `b`. -/
theorem matchMod_chain_decomp {mod m b p r : List Char}
    (h : matchMod mod (m ++ b) = some (p, r))
    (hm : m = [] ∨ m.getLast? = some ':') (hb : ':' ∉ b) :
    ∃ m2, p ++ m2 = m ∧ r = m2 ++ b ∧ (m2 = [] ∨ m2.getLast? = some ':') := by
  obtain ⟨heq, hpne, hpl, hrne⟩ := matchMod_eq h
  rcases List.append_eq_append_iff.mp heq with ⟨a', ha1, ha2⟩ | ⟨c', hc1, hc2⟩
  · -- m = p ++ a', r = a' ++ b
    refine ⟨a', ha1.symm, ha2, ?_⟩
    rcases a' with _ | ⟨x, xs⟩
    · exact Or.inl rfl
    · right
      rcases hm with rfl | hm
      · simp at ha1
      · rw [ha1, List.getLast?_append] at hm
        cases hlast : (x :: xs).getLast? with
        | none => simp at hlast
        | some y =>
          rw [hlast] at hm
          simpa using hm
  · -- p = m ++ c', b = c' ++ r
    rcases c' with _ | ⟨x, xs⟩
    · exact ⟨[], by simp [hc1], by simp [hc2], Or.inl rfl⟩
    · exfalso
      rw [hc1, List.getLast?_append] at hpl
      cases hlast : (x :: xs).getLast? with
      | none => simp at hlast
      | some y =>
        rw [hlast] at hpl
        simp only [Option.or_some, Option.some.injEq] at hpl
        subst hpl
        have hmem : ':' ∈ x :: xs := by
          obtain ⟨hne, heq⟩ := List.mem_getLast?_eq_getLast
            (x := ':') (by rw [Option.mem_def, hlast])
          rw [heq]
          exact List.getLast_mem hne
        exact hb (hc2 ▸ List.mem_append.mpr (Or.inl hmem))

/-- Core of the modifier-preservation property: on a token `m ++ b` with all
colons inside the (colon-terminated) modifier chain `m`, the rewriter keeps
`m` verbatim and prefixes `b`, handling a leading `!` of `b`. -/
theorem addPrefixGo_modchain {pfx : List Char} {ign : List (List Char)} :
    ∀ fuel (m b : List Char), (m ++ b).length ≤ fuel →
    (m = [] ∨ m.getLast? = some ':') → ':' ∉ b →
    isSubstr pfx (m ++ b) = false → isNotTailwindClass ign b = false →
    addPrefixGo pfx ign fuel (m ++ b) =
      m ++ (if List.isPrefixOf ['!'] b then '!' :: (pfx ++ b.tail) else pfx ++ b) := by
  intro fuel
  induction fuel with
  | zero =>
    intro m b hlen _ _ _ hel
    have h0 : m ++ b = [] := List.eq_nil_of_length_eq_zero (Nat.le_zero.mp hlen)
    obtain ⟨rfl, rfl⟩ : m = [] ∧ b = [] := List.append_eq_nil.mp h0
    rw [isNotTailwindClass_nil] at hel
    cases hel
  | succ fuel ih =>
    intro m b hlen hm hb hsub hel
    have hbne : b ≠ [] := by
      intro hb0
      subst hb0
      rw [isNotTailwindClass_nil] at hel
      cases hel
    have hnotcls : isNotTailwindClass ign (m ++ b) = false := by
      rw [isNotTailwindClass_append hm hb]; exact hel
    simp only [addPrefixGo, hsub, hnotcls, Bool.false_eq_true, if_false]
    cases hg : (if isSubstr "group-".toList (m ++ b) then
        matchMod "group-".toList (m ++ b) else none) with
    | some q =>
      obtain ⟨p, r⟩ := q
      have hmm : matchMod "group-".toList (m ++ b) = some (p, r) := by
        by_cases hs : isSubstr "group-".toList (m ++ b) = true
        · rwa [if_pos hs] at hg
        · rw [if_neg hs] at hg; cases hg
      obtain ⟨m2, hpm, hrm, hm2⟩ := matchMod_chain_decomp hmm hm hb
      subst hrm
      have hlt : (m2 ++ b).length < (m ++ b).length := matchMod_length hmm
      have hsub2 : isSubstr pfx (m2 ++ b) = false := by
        refine isSubstr_mono ?_ hsub
        refine List.IsSuffix.isInfix ⟨p, ?_⟩
        rw [← List.append_assoc, hpm]
      have hstep := ih m2 b (by omega) hm2 hb hsub2 hel
      rw [← hpm]
      simp [hstep, List.append_assoc]
    | none =>
      cases hpe : (if isSubstr "peer-".toList (m ++ b) then
          matchMod "peer-".toList (m ++ b) else none) with
      | some q =>
        obtain ⟨p, r⟩ := q
        have hmm : matchMod "peer-".toList (m ++ b) = some (p, r) := by
          by_cases hs : isSubstr "peer-".toList (m ++ b) = true
          · rwa [if_pos hs] at hpe
          · rw [if_neg hs] at hpe; cases hpe
        obtain ⟨m2, hpm, hrm, hm2⟩ := matchMod_chain_decomp hmm hm hb
        subst hrm
        have hlt : (m2 ++ b).length < (m ++ b).length := matchMod_length hmm
        have hsub2 : isSubstr pfx (m2 ++ b) = false := by
          refine isSubstr_mono ?_ hsub
          refine List.IsSuffix.isInfix ⟨p, ?_⟩
          rw [← List.append_assoc, hpm]
        have hstep := ih m2 b (by omega) hm2 hb hsub2 hel
        rw [← hpm]
        simp [hstep, List.append_assoc]
      | none =>
        rcases hm with rfl | hm
        · simp [splitAtLastColon_none_of hb]
        · by_cases hbang : List.isPrefixOf ['!'] b = true <;>
            simp [splitAtLastColon_append hm hb, hbang]

/-- A modifier chain: the concatenation of segments `ident ++ ":"`. -/
def modChain (segs : List (List Char)) : List Char :=
  (segs.map (fun seg => seg ++ [':'])).join

theorem modChain_endsColon (segs : List (List Char)) :
    modChain segs = [] ∨ (modChain segs).getLast? = some ':' := by
  induction segs with
  | nil => exact Or.inl rfl
  | cons seg rest ih =>
    right
    show ((seg ++ [':']) ++ modChain rest).getLast? = some ':'
    rw [List.getLast?_append]
    rcases ih with h | h
    · rw [h]
      simp [List.getLast?_concat]
    · rw [h]
      rfl

/-- **C1** Rewrite equation with modifier preservation and negation: for every
modifier chain `m` (a sequence of `ident:` segments, given by `segs`) and
every eligible BaseClass `b` — classified a utility class (which subsumes not
being in the ignore set), with the whole token not containing the prefix —
`addPrefixToClass (m ++ b)` equals `m ++ "!" ++ pfx ++ b'` when `b = "!" ++ b'`
and `m ++ pfx ++ b` otherwise. -/
theorem addPrefixToClass_modifier_preservation
    (pfx : List Char) (ign : List (List Char)) (segs : List (List Char)) (b : List Char)
    (_hsegs : ∀ seg ∈ segs, seg ≠ [] ∧ ':' ∉ seg)
    (hb : ':' ∉ b)
    (hsub : isSubstr pfx (modChain segs ++ b) = false)
    (hel : isNotTailwindClass ign b = false) :
    addPrefixToClass pfx ign (modChain segs ++ b) =
      modChain segs ++
        (if List.isPrefixOf ['!'] b then '!' :: (pfx ++ b.tail) else pfx ++ b) :=
  addPrefixGo_modchain (modChain segs ++ b).length (modChain segs) b le_rfl
    (modChain_endsColon segs) hb hsub hel

/-- Witness for C1, instantiated at the claim's concrete example:
`addPrefixToClass "hover:!-translate-x-2"` with prefix `tw-` equals
`"hover:!tw--translate-x-2"`. -/
theorem addPrefixToClass_modifier_preservation_witness :
    addPrefixToClass "tw-".toList defaultIgnore "hover:!-translate-x-2".toList
      = "hover:!tw--translate-x-2".toList := by
  have e1 : "hover:!-translate-x-2".toList
      = modChain [['h', 'o', 'v', 'e', 'r']] ++ "!-translate-x-2".toList := by decide
  rw [e1, addPrefixToClass_modifier_preservation "tw-".toList defaultIgnore
    [['h', 'o', 'v', 'e', 'r']] "!-translate-x-2".toList
    (by decide) (by decide) (by decide) (by decide)]
  decide

theorem addPrefixGo_self_or_substr (pfx : List Char) (ign : List (List Char)) :
    ∀ fuel s, addPrefixGo pfx ign fuel s = s ∨
      isSubstr pfx (addPrefixGo pfx ign fuel s) = true := by
  intro fuel
  induction fuel with
  | zero => intro s; exact Or.inl rfl
  | succ fuel ih =>
    intro s
    by_cases hA : isSubstr pfx s = true
    · left
      simp [addPrefixGo, hA]
    · by_cases hB : isNotTailwindClass ign s = true
      · left
        simp [addPrefixGo, hA, hB]
      · cases hg : (if isSubstr "group-".toList s then
            matchMod "group-".toList s else none) with
        | some q =>
          obtain ⟨p, r⟩ := q
          have hmm : matchMod "group-".toList s = some (p, r) := by
            by_cases hs : isSubstr "group-".toList s = true
            · rwa [if_pos hs] at hg
            · rw [if_neg hs] at hg; cases hg
          have heq : p ++ r = s := (matchMod_eq hmm).1
          have hgo : addPrefixGo pfx ign (fuel + 1) s = p ++ addPrefixGo pfx ign fuel r := by
            simp only [addPrefixGo, hg]
            rw [if_neg hA, if_neg hB]
          rcases ih r with h | h
          · left
            rw [hgo, h, heq]
          · right
            rw [hgo]
            exact isSubstr_iff.mpr
              ((isSubstr_iff.mp h).trans (List.suffix_append p _).isInfix)
        | none =>
          cases hp : (if isSubstr "peer-".toList s then
              matchMod "peer-".toList s else none) with
          | some q =>
            obtain ⟨p, r⟩ := q
            have hmm : matchMod "peer-".toList s = some (p, r) := by
              by_cases hs : isSubstr "peer-".toList s = true
              · rwa [if_pos hs] at hp
              · rw [if_neg hs] at hp; cases hp
            have heq : p ++ r = s := (matchMod_eq hmm).1
            have hgo : addPrefixGo pfx ign (fuel + 1) s = p ++ addPrefixGo pfx ign fuel r := by
              simp only [addPrefixGo, hg, hp]
              rw [if_neg hA, if_neg hB]
            rcases ih r with h | h
            · left
              rw [hgo, h, heq]
            · right
              rw [hgo]
              exact isSubstr_iff.mpr
                ((isSubstr_iff.mp h).trans (List.suffix_append p _).isInfix)
          | none =>
            right
            cases hsl : splitAtLastColon s with
            | none =>
              by_cases hbang : List.isPrefixOf ['!'] s = true
              · have hgo : addPrefixGo pfx ign (fuel + 1) s = '!' :: (pfx ++ s.tail) := by
                  simp only [addPrefixGo, hg, hp, hsl]
                  rw [if_neg hA, if_neg hB, if_pos hbang]
                rw [hgo]
                exact isSubstr_iff.mpr
                  (List.infix_cons (List.prefix_append pfx s.tail).isInfix)
              · have hgo : addPrefixGo pfx ign (fuel + 1) s = pfx ++ s := by
                  simp only [addPrefixGo, hg, hp, hsl]
                  rw [if_neg hA, if_neg hB, if_neg hbang]
                rw [hgo]
                exact isSubstr_iff.mpr (List.prefix_append pfx s).isInfix
            | some q =>
              obtain ⟨bc, ac⟩ := q
              by_cases hbang : List.isPrefixOf ['!'] ac = true
              · have hgo : addPrefixGo pfx ign (fuel + 1) s
                    = bc ++ '!' :: (pfx ++ ac.tail) := by
                  simp only [addPrefixGo, hg, hp, hsl]
                  rw [if_neg hA, if_neg hB, if_pos hbang]
                rw [hgo]
                refine isSubstr_iff.mpr (List.IsInfix.trans ?_
                  (List.suffix_append bc _).isInfix)
                exact List.infix_cons (List.prefix_append pfx ac.tail).isInfix
              · have hgo : addPrefixGo pfx ign (fuel + 1) s = bc ++ pfx ++ ac := by
                  simp only [addPrefixGo, hg, hp, hsl]
                  rw [if_neg hA, if_neg hB, if_neg hbang]
                rw [hgo]
                exact isSubstr_iff.mpr (List.infix_append bc pfx ac)

/-- **C2** Idempotence: applying the rewrite twice yields the same result as
once, for every token, prefix and ignore set; and the guard: any token that
already contains the prefix string as a substring anywhere is returned
unchanged. -/
theorem addPrefixToClass_idempotent
    (pfx : List Char) (ign : List (List Char)) (x : List Char) :
    addPrefixToClass pfx ign (addPrefixToClass pfx ign x) = addPrefixToClass pfx ign x ∧
    (isSubstr pfx x = true → addPrefixToClass pfx ign x = x) := by
  have guard : ∀ y : List Char, isSubstr pfx y = true → addPrefixToClass pfx ign y = y := by
    intro y hy
    cases y with
    | nil => rfl
    | cons c t =>
      show addPrefixGo pfx ign (t.length + 1) (c :: t) = c :: t
      simp [addPrefixGo, hy]
  constructor
  · rcases addPrefixGo_self_or_substr pfx ign x.length x with h | h
    · show addPrefixToClass pfx ign (addPrefixGo pfx ign x.length x) = _
      rw [h]
    · exact guard _ h
  · exact guard x

/-- Witness for C2 at a concrete already-prefixed token. -/
theorem addPrefixToClass_idempotent_witness :
    addPrefixToClass "two-".toList defaultIgnore "two-bg-red-500".toList
      = "two-bg-red-500".toList :=
  (addPrefixToClass_idempotent "two-".toList defaultIgnore "two-bg-red-500".toList).2
    (by decide)

/-- **C8** Termination of the rewriter: a successful group- or peer- regex match
yields two non-empty captures whose concatenation is the input, so the
recursive call (on the second capture) is on a strictly shorter string;
consequently the recursion always bottoms out — the fuelled model computes
`addPrefixToClass` for any fuel at least the token length. -/
theorem addPrefixToClass_termination :
    (∀ mod s p r : List Char, matchMod mod s = some (p, r) →
      p ≠ [] ∧ r ≠ [] ∧ p ++ r = s ∧ r.length < s.length) ∧
    (∀ (pfx : List Char) (ign : List (List Char)) (fuel : Nat) (s : List Char),
      s.length ≤ fuel → addPrefixGo pfx ign fuel s = addPrefixToClass pfx ign s) := by
  constructor
  · intro mod s p r h
    obtain ⟨h1, h2, _, h4⟩ := matchMod_eq h
    exact ⟨h2, h4, h1, matchMod_length h⟩
  · intro pfx ign fuel s hf
    exact addPrefixGo_fuel_irrel fuel s.length s hf le_rfl

/-- Witness for C8 at a concrete group-modifier token. -/
theorem addPrefixToClass_termination_witness :
    ("group-hover:".toList ≠ [] ∧ "opacity-50".toList ≠ [] ∧
      "group-hover:".toList ++ "opacity-50".toList = "group-hover:opacity-50".toList ∧
      "opacity-50".toList.length < "group-hover:opacity-50".toList.length) ∧
    addPrefixGo "tw-".toList defaultIgnore 99 "group-hover:opacity-50".toList
      = addPrefixToClass "tw-".toList defaultIgnore "group-hover:opacity-50".toList :=
  ⟨addPrefixToClass_termination.1 "group-".toList "group-hover:opacity-50".toList
      "group-hover:".toList "opacity-50".toList (by decide),
    addPrefixToClass_termination.2 "tw-".toList defaultIgnore 99
      "group-hover:opacity-50".toList (by decide)⟩

/-! ## The classifier against its specification (C3) -/

theorem splitAtLastColon_none_colon_not_mem : ∀ {s : List Char},
    splitAtLastColon s = none → ':' ∉ s := by
  intro s
  induction s with
  | nil => intro _ h; simp at h
  | cons c t ih =>
    intro h hmem
    cases hz : splitAtLastColon t with
    | some p => simp [splitAtLastColon, hz] at h
    | none =>
      simp only [splitAtLastColon, hz] at h
      rcases List.mem_cons.mp hmem with h3 | h3
      · rw [if_pos h3.symm] at h; cases h
      · exact ih hz h3

theorem takeWhile_all_eq {p : Char → Bool} : ∀ {l : List Char},
    (∀ x ∈ l, p x = true) → l.takeWhile p = l := by
  intro l
  induction l with
  | nil => intro _; rfl
  | cons c t ih =>
    intro h
    rw [List.takeWhile_cons, if_pos (h c (List.mem_cons_self c t)),
      ih (fun x hx => h x (List.mem_cons_of_mem c hx))]

/-- `afterLastColon` computes "the substring after the last colon": reversing,
taking the maximal colon-free run, and reversing back. -/
theorem afterLastColon_eq_rev (s : List Char) :
    afterLastColon s = (s.reverse.takeWhile (fun d => !(d = ':'))).reverse := by
  cases h : splitAtLastColon s with
  | none =>
    have hnc : ':' ∉ s := splitAtLastColon_none_colon_not_mem h
    rw [afterLastColon, h, takeWhile_all_eq, List.reverse_reverse]
    intro x hx
    simp only [Bool.not_eq_true', decide_eq_false_iff_not]
    intro hxc
    exact hnc (hxc ▸ List.mem_reverse.mp hx)
  | some q =>
    obtain ⟨a, b⟩ := q
    obtain ⟨heq, hlast, hbc⟩ := splitAtLastColon_eq h
    obtain ⟨u, rfl⟩ : ∃ u, a = u ++ [':'] := by
      rcases a with _ | ⟨x, xs⟩
      · simp at hlast
      · exact ⟨(x :: xs).dropLast, by
          conv_lhs => rw [← List.dropLast_append_getLast (l := x :: xs) (by simp)]
          rw [List.getLast?_eq_getLast (x :: xs) (by simp)] at hlast
          rw [Option.some.inj hlast]⟩
    rw [afterLastColon, h, ← heq]
    rw [List.reverse_append, List.reverse_append]
    rw [List.takeWhile_append]
    rw [takeWhile_all_eq (by
      intro x hx
      simp only [Bool.not_eq_true', decide_eq_false_iff_not]
      intro hxc
      exact hbc (hxc ▸ List.mem_reverse.mp hx))]
    rw [if_pos rfl]
    simp

theorem contains_mem_iff {α : Type} [BEq α] [LawfulBEq α] {l : List α} {a : α} :
    l.contains a = true ↔ a ∈ l := by
  rw [show l.contains a = l.elem a from rfl]
  exact List.elem_iff

theorem contains_false_iff {α : Type} [BEq α] [LawfulBEq α] {l : List α} {a : α} :
    l.contains a = false ↔ a ∉ l := by
  rw [← Bool.not_eq_true, not_iff_not]
  exact contains_mem_iff

theorem headIs_iff {p : Char → Bool} {c : List Char} :
    headIs p c = true ↔ ∃ h t, c = h :: t ∧ p h = true := by
  cases c with
  | nil => simp [headIs]
  | cons x xs =>
    simp only [headIs]
    constructor
    · intro h; exact ⟨x, xs, rfl, h⟩
    · rintro ⟨h, t, heq, hp⟩
      obtain ⟨rfl, rfl⟩ : x = h ∧ xs = t := by
        injection heq with h1 h2; exact ⟨h1, h2⟩
      exact hp

theorem hasCamelCase_iff : ∀ {c : List Char},
    hasCamelCase c = true ↔
      ∃ p l u q, c = p ++ l :: u :: q ∧ l.isLower = true ∧ u.isUpper = true := by
  intro c
  induction c with
  | nil =>
    refine iff_of_false (by simp [hasCamelCase]) ?_
    rintro ⟨p, l, u, q, heq, -, -⟩
    exact absurd heq.symm (by simp)
  | cons a t ih =>
    cases t with
    | nil =>
      refine iff_of_false (by simp [hasCamelCase]) ?_
      rintro ⟨p, l, u, q, heq, -, -⟩
      rcases p with _ | ⟨x, xs⟩ <;> simp at heq
    | cons b t2 =>
      simp only [hasCamelCase, Bool.or_eq_true, Bool.and_eq_true, ih]
      constructor
      · rintro (⟨hl, hu⟩ | ⟨p, l, u, q, heq, hl, hu⟩)
        · exact ⟨[], a, b, t2, rfl, hl, hu⟩
        · exact ⟨a :: p, l, u, q, by rw [List.cons_append, heq], hl, hu⟩
      · rintro ⟨p, l, u, q, heq, hl, hu⟩
        rcases p with _ | ⟨x, xs⟩
        · left
          simp only [List.nil_append, List.cons.injEq] at heq
          obtain ⟨rfl, rfl, -⟩ := heq
          exact ⟨hl, hu⟩
        · right
          simp only [List.cons_append, List.cons.injEq] at heq
          obtain ⟨rfl, heq2⟩ := heq
          exact ⟨xs, l, u, q, heq2, hl, hu⟩

/-- The reduction step of the specification: the substring after the last
colon, with a single leading `!` stripped. -/
def SpecReduced (className : List Char) : List Char :=
  let afterC := (className.reverse.takeWhile (fun d => !(d = ':'))).reverse
  if List.isPrefixOf ['!'] afterC then afterC.tail else afterC

/-- The classifier's specification, written from the claim: after the
reduction, the class is NOT a utility class iff it is an exact ignore-list
member, or has a camelCase pair, or a bracket-free underscore, or starts with
an uppercase letter or a digit, or is shorter than 2, or contains a double
underscore, or starts with a framework-reserved name. -/
def SpecNotTailwind (ign : List (List Char)) (className : List Char) : Prop :=
  let c := SpecReduced className
  c ∈ ign ∨
  (∃ p l u q, c = p ++ l :: u :: q ∧ l.isLower = true ∧ u.isUpper = true) ∨
  ('_' ∈ c ∧ '[' ∉ c) ∨
  (∃ h t, c = h :: t ∧ h.isUpper = true) ∨
  (∃ h t, c = h :: t ∧ h.isDigit = true) ∨
  c.length < 2 ∨
  "__".toList <:+: c ∨
  "ng-".toList <+: c ∨ "v-".toList <+: c ∨ "data-".toList <+: c ∨
    "aria-".toList <+: c ∨ "role-".toList <+: c

set_option maxHeartbeats 2000000 in
/-- **C3** Classifier definition: `isNotTailwindClass` returns `true` exactly
under the specification's disjunction of conditions, evaluated on the
BaseClass reduced to the substring after the last `:` with a single leading
`!` stripped. -/
theorem isNotTailwindClass_spec (ign : List (List Char)) (className : List Char) :
    isNotTailwindClass ign className = true ↔ SpecNotTailwind ign className := by
  have hred : stripBang (afterLastColon className) = SpecReduced className := by
    rw [stripBang, afterLastColon_eq_rev, SpecReduced]
  simp only [isNotTailwindClass, hred]
  by_cases hmem : SpecReduced className ∈ ign
  · rw [if_pos (contains_mem_iff.mpr hmem)]
    simp only [SpecNotTailwind, true_iff]
    exact Or.inl hmem
  · rw [if_neg (fun h => hmem (contains_mem_iff.mp h))]
    simp only [SpecNotTailwind, Bool.or_eq_true, Bool.and_eq_true,
      Bool.not_eq_true', hasCamelCase_iff, headIs_iff, isSubstr_iff,
      decide_eq_true_iff, contains_mem_iff, contains_false_iff, frameworkPats,
      List.any_cons, List.any_nil, List.isPrefixOf_iff_prefix, Bool.or_false]
    revert hmem
    generalize (SpecReduced className ∈ ign) = PM
    generalize (∃ p l u q, SpecReduced className = p ++ l :: u :: q ∧
      l.isLower = true ∧ u.isUpper = true) = PC
    generalize ('_' ∈ SpecReduced className) = PU
    generalize ('[' ∉ SpecReduced className) = PB
    generalize (∃ h t, SpecReduced className = h :: t ∧ h.isUpper = true) = PUp
    generalize (∃ h t, SpecReduced className = h :: t ∧ h.isDigit = true) = PD
    generalize ((SpecReduced className).length < 2) = PL
    generalize ("__".toList <:+: SpecReduced className) = PW
    generalize ("ng-".toList <+: SpecReduced className) = P1
    generalize ("v-".toList <+: SpecReduced className) = P2
    generalize ("data-".toList <+: SpecReduced className) = P3
    generalize ("aria-".toList <+: SpecReduced className) = P4
    generalize ("role-".toList <+: SpecReduced className) = P5
    intro hmem
    tauto

/-! ## Generic lemmas for the extractor scanners -/

theorem matchLitCI_append_self : ∀ (pat rest : List Char),
    matchLitCI pat (pat ++ rest) = some rest := by
  intro pat
  induction pat with
  | nil => intro rest; simp [matchLitCI]
  | cons p ps ih =>
    intro rest
    simp only [List.cons_append, matchLitCI, if_pos rfl]
    exact ih rest

theorem matchLit_append_self : ∀ (pat rest : List Char),
    matchLit pat (pat ++ rest) = some rest := by
  intro pat
  induction pat with
  | nil => intro rest; simp [matchLit]
  | cons p ps ih =>
    intro rest
    simp only [List.cons_append, matchLit, if_pos rfl]
    exact ih rest

theorem matchLitCI_suffix : ∀ {pat s s1 : List Char},
    matchLitCI pat s = some s1 → s1 <:+ s ∧ s1.length + pat.length = s.length := by
  intro pat
  induction pat with
  | nil =>
    intro s s1 h
    simp only [matchLitCI, Option.some.injEq] at h
    subst h
    exact ⟨List.suffix_refl s, by simp⟩
  | cons p ps ih =>
    intro s s1 h
    cases s with
    | nil => simp [matchLitCI] at h
    | cons c cs =>
      by_cases hc : p.toLower = c.toLower
      · rw [matchLitCI, if_pos hc] at h
        obtain ⟨h1, h2⟩ := ih h
        refine ⟨h1.trans (List.suffix_cons c cs), ?_⟩
        simp only [List.length_cons]
        omega
      · rw [matchLitCI, if_neg hc] at h
        cases h

theorem matchLit_suffix : ∀ {pat s s1 : List Char},
    matchLit pat s = some s1 → s1 <:+ s ∧ s1.length + pat.length = s.length := by
  intro pat
  induction pat with
  | nil =>
    intro s s1 h
    simp only [matchLit, Option.some.injEq] at h
    subst h
    exact ⟨List.suffix_refl s, by simp⟩
  | cons p ps ih =>
    intro s s1 h
    cases s with
    | nil => simp [matchLit] at h
    | cons c cs =>
      by_cases hc : p = c
      · rw [matchLit, if_pos hc] at h
        obtain ⟨h1, h2⟩ := ih h
        refine ⟨h1.trans (List.suffix_cons c cs), ?_⟩
        simp only [List.length_cons]
        omega
      · rw [matchLit, if_neg hc] at h
        cases h

theorem suffix_take_append {s rest : List Char} (h : rest <:+ s) :
    s.take (s.length - rest.length) ++ rest = s := by
  obtain ⟨u, rfl⟩ := h
  have : (u ++ rest).length - rest.length = u.length := by
    simp [List.length_append]
  rw [this, List.take_left]

/-- `takeWhile` of an all-satisfying block followed by a failing head. -/
theorem takeWhile_append_stop {p : Char → Bool} {v w : List Char}
    (hv : ∀ x ∈ v, p x = true) (hw : w = [] ∨ ∃ c t, w = c :: t ∧ p c = false) :
    (v ++ w).takeWhile p = v := by
  rw [List.takeWhile_append, takeWhile_all_eq hv, if_pos rfl]
  rcases hw with rfl | ⟨c, t, rfl, hc⟩
  · simp
  · rw [List.takeWhile_cons, if_neg (by simp [hc])]
    simp

/-- When `pat` does not occur starting inside `u`, the first occurrence of
`pat` in `u ++ (pat ++ w)` is exactly the one between `u` and `w`. -/
theorem findFirst_at : ∀ {u pat w : List Char},
    (∀ i, i < u.length → List.isPrefixOf pat ((u ++ (pat ++ w)).drop i) = false) →
    findFirst pat (u ++ (pat ++ w)) = some (u, w) := by
  intro u
  induction u with
  | nil =>
    intro pat w _
    simp only [List.nil_append]
    cases pat with
    | nil =>
      cases w with
      | nil => simp [findFirst]
      | cons c t => simp [findFirst, List.isPrefixOf]
    | cons pc pt =>
      simp only [List.cons_append, findFirst, List.append_eq]
      rw [if_pos (show List.isPrefixOf (pc :: pt) (pc :: (pt ++ w)) = true from
        List.isPrefixOf_iff_prefix.mpr ⟨w, by simp⟩)]
      simp [List.drop_succ_cons, List.drop_left]
  | cons x u' ih =>
    intro pat w h
    have h0 : List.isPrefixOf pat (x :: (u' ++ (pat ++ w))) = false := by
      have := h 0 (by simp)
      simpa using this
    have hih := ih (fun i hi => by
      have := h (i + 1) (by simpa using Nat.succ_lt_succ hi)
      simpa using this)
    simp only [List.cons_append, findFirst, h0, Bool.false_eq_true, if_false,
      List.append_eq, hih]

/-- Splicing at a known position: when `pat` does not occur starting inside
`u`, `replaceFirst` rewrites exactly the `pat` between `u` and `w`, expanding
the replacement template there. -/
theorem replaceFirst_at {u pat repl w : List Char}
    (h : ∀ i, i < u.length → List.isPrefixOf pat ((u ++ (pat ++ w)).drop i) = false) :
    replaceFirst pat repl (u ++ (pat ++ w))
      = u ++ (getSubstitution pat u w repl ++ w) := by
  simp only [replaceFirst, findFirst_at h]

/-- A replacement string without a dollar character has no template to expand:
GetSubstitution returns it verbatim. -/
theorem getSubstitution_no_dollar {matched pre post : List Char} :
    ∀ {repl : List Char}, '$' ∉ repl →
      getSubstitution matched pre post repl = repl := by
  intro repl
  induction repl with
  | nil => intro _; rfl
  | cons d rest ih =>
    intro h
    have hd : ¬(d = '$') := fun hd => h (hd ▸ List.mem_cons_self d rest)
    have hrest : '$' ∉ rest := fun hm => h (List.mem_cons_of_mem d hm)
    cases rest with
    | nil =>
      simp only [getSubstitution]
      rw [if_neg hd]
    | cons c rest2 =>
      simp only [getSubstitution]
      rw [if_neg hd, ih hrest]

/-! ## The markup extractor (C4, C10) -/

theorem take_heads {mt b : List Char} :
    (mt ++ b).take ((mt ++ b).length - b.length) = mt := by
  have h : (mt ++ b).length - b.length = mt.length := by simp [List.length_append]
  rw [h, List.take_left]

theorem matchHtmlAt_none_head {x : Char} {t : List Char} (hx : x.toLower ≠ 'c') :
    matchHtmlAt (x :: t) = none := by
  have h1 : matchLitCI "class".toList (x :: t) = none := by
    show matchLitCI ('c' :: "lass".toList) (x :: t) = none
    simp only [matchLitCI]
    rw [if_neg (fun h => by
      rw [show Char.toLower 'c' = 'c' from by decide] at h
      exact hx h.symm)]
  simp only [matchHtmlAt, h1]

theorem matchHtmlAt_region {v b : List Char} (hv : ∀ x ∈ v, isQuoteH x = false) :
    matchHtmlAt ("class=\"".toList ++ (v ++ '"' :: b))
      = some ("class=\"".toList ++ (v ++ ['"']), v, b) := by
  have hsplit : "class=\"".toList ++ (v ++ '"' :: b)
      = "class".toList ++ ('=' :: '"' :: (v ++ '"' :: b)) := by
    rw [show "class=\"".toList = "class".toList ++ ['=', '"'] from by decide]
    simp
  have htw : (v ++ '"' :: b).takeWhile (fun c => !isQuoteH c) = v := by
    refine takeWhile_append_stop ?_ (Or.inr ⟨'"', b, rfl, by decide⟩)
    intro x hx
    simp [hv x hx]
  have hdw1 : ('=' :: '"' :: (v ++ '"' :: b)).dropWhile isSpaceJS
      = '=' :: '"' :: (v ++ '"' :: b) := by
    rw [List.dropWhile_cons, if_neg (by decide)]
  have hdw2 : ('"' :: (v ++ '"' :: b)).dropWhile isSpaceJS = '"' :: (v ++ '"' :: b) := by
    rw [List.dropWhile_cons, if_neg (by decide)]
  have hS2 : "class".toList ++ ('=' :: '"' :: (v ++ '"' :: b))
      = ("class=\"".toList ++ (v ++ ['"'])) ++ b := by
    rw [show "class=\"".toList = "class".toList ++ ['=', '"'] from by decide]
    simp
  have hq : isQuoteH '"' = true := by decide
  rw [hsplit]
  simp only [matchHtmlAt, matchLitCI_append_self, hdw1, hdw2, htw, hq,
    eq_self_iff_true, if_true, List.drop_left]
  rw [hS2, take_heads]

theorem matchHtmlAt_consumes : ∀ {s mt v rest : List Char},
    matchHtmlAt s = some (mt, v, rest) → mt ++ rest = s ∧ rest.length < s.length := by
  intro s mt v rest h
  cases hm : matchLitCI "class".toList s with
  | none => simp only [matchHtmlAt, hm] at h; cases h
  | some s1 =>
    obtain ⟨hs1, hlen1⟩ := matchLitCI_suffix hm
    cases hd2 : s1.dropWhile isSpaceJS with
    | nil => simp only [matchHtmlAt, hm, hd2] at h; cases h
    | cons c2 s3 =>
      have hs3 : c2 :: s3 <:+ s1 := hd2 ▸ List.dropWhile_suffix isSpaceJS
      by_cases hc2 : c2 = '='
      · cases hd4 : s3.dropWhile isSpaceJS with
        | nil =>
          simp only [matchHtmlAt, hm, hd2, if_pos hc2, hd4] at h
          cases h
        | cons q s5 =>
          have hs5 : q :: s5 <:+ s3 := hd4 ▸ List.dropWhile_suffix isSpaceJS
          by_cases hq : isQuoteH q = true
          · cases hd6 : s5.drop ((s5.takeWhile (fun c => !isQuoteH c)).length) with
            | nil =>
              simp only [matchHtmlAt, hm, hd2, if_pos hc2, hd4, if_pos hq, hd6] at h
              cases h
            | cons q2 rest2 =>
              simp only [matchHtmlAt, hm, hd2, if_pos hc2, hd4, if_pos hq, hd6,
                Option.some.injEq, Prod.mk.injEq] at h
              obtain ⟨hmt, -, hrest⟩ := h
              subst hrest
              have h6 : q2 :: rest2 <:+ s5 := hd6 ▸ List.drop_suffix _ s5
              have hrs : rest2 <:+ s :=
                (((List.suffix_cons q2 rest2).trans h6).trans
                  (((List.suffix_cons q s5).trans hs5).trans
                    (((List.suffix_cons c2 s3).trans hs3).trans hs1)))
              constructor
              · rw [← hmt]
                exact suffix_take_append hrs
              · have l1 : rest2.length < (q2 :: rest2).length := by simp
                have l2 : (q2 :: rest2).length ≤ s5.length := h6.length_le
                have l3 : (q :: s5).length ≤ s3.length := hs5.length_le
                have l4 : (c2 :: s3).length ≤ s1.length := hs3.length_le
                have l5 : s1.length < s.length := by
                  have : ("class".toList).length = 5 := by decide
                  omega
                simp only [List.length_cons] at l2 l3 l4
                omega
          · simp only [matchHtmlAt, hm, hd2, if_pos hc2, hd4, if_neg hq] at h
            cases h
      · simp only [matchHtmlAt, hm, hd2, if_neg hc2] at h
        cases h

theorem replaceHtmlGo_fuel_irrel {pfx : List Char} {ign : List (List Char)} :
    ∀ f1 f2 s, s.length ≤ f1 → s.length ≤ f2 →
      replaceHtmlGo pfx ign f1 s = replaceHtmlGo pfx ign f2 s := by
  intro f1
  induction f1 with
  | zero =>
    intro f2 s h1 _
    have : s = [] := List.eq_nil_of_length_eq_zero (Nat.le_zero.mp h1)
    subst this
    cases f2 <;> rfl
  | succ f1 ih =>
    intro f2 s h1 h2
    cases s with
    | nil =>
      cases f2 <;> rfl
    | cons c t =>
      cases f2 with
      | zero => simp at h2
      | succ f2 =>
        cases hm : matchHtmlAt (c :: t) with
        | some q =>
          obtain ⟨mt, v, rest⟩ := q
          have hcons := matchHtmlAt_consumes hm
          have hIH : replaceHtmlGo pfx ign f1 rest = replaceHtmlGo pfx ign f2 rest := by
            have := hcons.2
            simp only [List.length_cons] at h1 h2 this
            exact ih f2 rest (by omega) (by omega)
          simp only [replaceHtmlGo, hm, hIH]
        | none =>
          have hIH : replaceHtmlGo pfx ign f1 t = replaceHtmlGo pfx ign f2 t := by
            simp only [List.length_cons] at h1 h2
            exact ih f2 t (by omega) (by omega)
          simp only [replaceHtmlGo, hm, hIH]

theorem replaceHtmlGo_scan {pfx : List Char} {ign : List (List Char)} {v b : List Char}
    (hv : ∀ x ∈ v, isQuoteH x = false) :
    ∀ (a : List Char) (fuel : Nat), (∀ x ∈ a, x.toLower ≠ 'c') →
    (a ++ ("class=\"".toList ++ (v ++ '"' :: b))).length ≤ fuel →
    replaceHtmlGo pfx ign fuel (a ++ ("class=\"".toList ++ (v ++ '"' :: b)))
      = a ++ (htmlCallback pfx ign ("class=\"".toList ++ (v ++ ['"'])) v
          ++ processHtmlClasses pfx ign b) := by
  intro a
  induction a with
  | nil =>
    intro fuel _ hlen
    simp only [List.nil_append] at hlen ⊢
    cases fuel with
    | zero => simp at hlen
    | succ fuel =>
      rw [show "class=\"".toList ++ (v ++ '"' :: b)
          = 'c' :: ("lass=\"".toList ++ (v ++ '"' :: b)) from by
        rw [show "class=\"".toList = 'c' :: "lass=\"".toList from by decide]; simp]
      simp only [replaceHtmlGo]
      rw [show 'c' :: ("lass=\"".toList ++ (v ++ '"' :: b))
          = "class=\"".toList ++ (v ++ '"' :: b) from by
        rw [show "class=\"".toList = 'c' :: "lass=\"".toList from by decide]; simp]
      rw [matchHtmlAt_region hv]
      have hfb : b.length ≤ fuel := by
        have : ("class=\"".toList).length = 7 := by decide
        simp only [List.length_append, List.length_cons] at hlen
        omega
      show htmlCallback pfx ign ("class=\"".toList ++ (v ++ ['"'])) v
            ++ replaceHtmlGo pfx ign fuel b
          = htmlCallback pfx ign ("class=\"".toList ++ (v ++ ['"'])) v
            ++ processHtmlClasses pfx ign b
      rw [replaceHtmlGo_fuel_irrel fuel b.length b hfb le_rfl]
      rfl
  | cons x a' ih =>
    intro fuel hA hlen
    cases fuel with
    | zero => simp at hlen
    | succ fuel =>
      simp only [List.cons_append, replaceHtmlGo,
        matchHtmlAt_none_head (hA x (List.mem_cons_self x a'))]
      rw [ih fuel (fun y hy => hA y (List.mem_cons_of_mem x hy)) (by
        simp only [List.cons_append, List.length_cons] at hlen
        omega)]

theorem htmlCallback_frame {pfx : List Char} {ign : List (List Char)} {v : List Char}
    (hocc : ∀ i, i < ("class=\"".toList).length →
      List.isPrefixOf v (("class=\"".toList ++ (v ++ ['"'])).drop i) = false)
    (hd : '$' ∉ joinSpace ((splitWs v).map (addPrefixToClass pfx ign))) :
    htmlCallback pfx ign ("class=\"".toList ++ (v ++ ['"'])) v
      = "class=\"".toList
          ++ (joinSpace ((splitWs v).map (addPrefixToClass pfx ign)) ++ ['"']) := by
  show replaceFirst v (joinSpace ((splitWs v).map (addPrefixToClass pfx ign)))
      ("class=\"".toList ++ (v ++ ['"'])) = _
  rw [replaceFirst_at hocc, getSubstitution_no_dollar hd]

/-- **C4 (amended)** Frame property of the markup extractor, in the good case:
around a `class="…"` region whose captured value does not occur earlier inside
the match and whose rejoined token list contains no dollar character,
everything before the region is preserved byte-for-byte, the attribute name
and quotes are kept, only the token list is replaced, and the rest of the text
is processed independently.  (As stated the original claim is false on two
counts: the replacement lands at the first occurrence of the captured value in
the match, which can sit inside the attribute name, and the replacement string
goes through GetSubstitution, so a dollar template such as `$&` in the token
list is expanded instead of spliced verbatim — see the counterexample for
both.  The `@apply` extractor's trailing semicolon-collapse pass can also
touch text outside any matched region.) -/
theorem processHtmlClasses_frame (pfx : List Char) (ign : List (List Char))
    (a v b : List Char)
    (hA : ∀ x ∈ a, x.toLower ≠ 'c')
    (hv : ∀ x ∈ v, isQuoteH x = false)
    (hocc : ∀ i, i < ("class=\"".toList).length →
      List.isPrefixOf v (("class=\"".toList ++ (v ++ ['"'])).drop i) = false)
    (hd : '$' ∉ joinSpace ((splitWs v).map (addPrefixToClass pfx ign))) :
    processHtmlClasses pfx ign (a ++ ("class=\"".toList ++ (v ++ '"' :: b)))
      = a ++ ("class=\"".toList
          ++ (joinSpace ((splitWs v).map (addPrefixToClass pfx ign))
              ++ '"' :: processHtmlClasses pfx ign b)) := by
  show replaceHtmlGo pfx ign (a ++ ("class=\"".toList ++ (v ++ '"' :: b))).length
      (a ++ ("class=\"".toList ++ (v ++ '"' :: b))) = _
  rw [replaceHtmlGo_scan hv a _ hA le_rfl, htmlCallback_frame hocc hd]
  simp [List.append_assoc]

/-- Witness for C4 (amended) at a concrete markup snippet. -/
theorem processHtmlClasses_frame_witness :
    processHtmlClasses "tw-".toList defaultIgnore "<p class=\"flex\">".toList
      = "<p class=\"tw-flex\">".toList := by
  have h := processHtmlClasses_frame "tw-".toList defaultIgnore
    "<p ".toList "flex".toList ">".toList (by decide) (by decide) (by decide)
    (by decide)
  rw [show "<p class=\"flex\">".toList
      = "<p ".toList ++ ("class=\"".toList ++ ("flex".toList ++ '"' :: ">".toList))
    from by decide]
  rw [h]
  decide

/-- **C4 (counterexample)** The frame property fails as stated, in two ways.
For `<p class="lass">` the captured value `lass` first occurs inside the
attribute name `class` itself, so `match.replace(classString, newClassString)`
corrupts the attribute name and leaves the quoted value unchanged — the output
does not even start with `<p class`.  And for `<p class="myClass$&">` the
single token is camelCase, so the rewriter returns it unchanged, yet
GetSubstitution expands the `$&` template in the replacement string to the
matched search string and the value is corrupted anyway. -/
theorem processHtmlClasses_attrname_corruption :
    (processHtmlClasses "tw-".toList defaultIgnore "<p class=\"lass\">".toList
        = "<p ctw-lass=\"lass\">".toList ∧
      List.isPrefixOf "<p class".toList
        (processHtmlClasses "tw-".toList defaultIgnore "<p class=\"lass\">".toList)
        = false) ∧
    (processHtmlClasses "tw-".toList defaultIgnore "<p class=\"myClass$&\">".toList
        = "<p class=\"myClassmyClass$&\">".toList ∧
      addPrefixToClass "tw-".toList defaultIgnore "myClass$&".toList
        = "myClass$&".toList) := by decide

/-- **C10** Implicit whitespace normalization: the markup extractor rejoins
the whitespace-split tokens with single spaces, so there are inputs on which
every token is returned unchanged by `addPrefixToClass` and yet the output
text differs from the input (here: a double space collapses). -/
theorem processHtmlClasses_whitespace_normalization :
    processHtmlClasses "tw-".toList defaultIgnore "<p class=\"a  b\">".toList
        = "<p class=\"a b\">".toList ∧
      addPrefixToClass "tw-".toList defaultIgnore "a".toList = "a".toList ∧
      addPrefixToClass "tw-".toList defaultIgnore "b".toList = "b".toList ∧
      splitWs "a  b".toList = ["a".toList, "b".toList] ∧
      "<p class=\"a b\">".toList ≠ "<p class=\"a  b\">".toList := by decide

/-! ## The script extractor (C7) -/

theorem matchJsAt_none_head {x : Char} {t : List Char} (hx : x.toLower ≠ 'c') :
    matchJsAt (x :: t) = none := by
  have h1 : matchLitCI "className".toList (x :: t) = none := by
    show matchLitCI ('c' :: "lassName".toList) (x :: t) = none
    simp only [matchLitCI]
    rw [if_neg (fun h => by
      rw [show Char.toLower 'c' = 'c' from by decide] at h
      exact hx h.symm)]
  simp only [matchJsAt, h1]

theorem matchJsAt_region {v b : List Char} (hv : ∀ x ∈ v, jsValStop x = false) :
    matchJsAt ("className=\"".toList ++ (v ++ '"' :: b))
      = some ("className=\"".toList ++ (v ++ ['"']), v, b) := by
  have hsplit : "className=\"".toList ++ (v ++ '"' :: b)
      = "className".toList ++ ('=' :: '"' :: (v ++ '"' :: b)) := by
    rw [show "className=\"".toList = "className".toList ++ ['=', '"'] from by decide]
    simp
  have htw : (v ++ '"' :: b).takeWhile (fun c => !jsValStop c) = v := by
    refine takeWhile_append_stop ?_ (Or.inr ⟨'"', b, rfl, by decide⟩)
    intro x hx
    simp [hv x hx]
  have hdw1 : ('=' :: '"' :: (v ++ '"' :: b)).dropWhile isSpaceJS
      = '=' :: '"' :: (v ++ '"' :: b) := by
    rw [List.dropWhile_cons, if_neg (by decide)]
  have hdw2 : ('"' :: (v ++ '"' :: b)).dropWhile isSpaceJS = '"' :: (v ++ '"' :: b) := by
    rw [List.dropWhile_cons, if_neg (by decide)]
  have hS2 : "className".toList ++ ('=' :: '"' :: (v ++ '"' :: b))
      = ("className=\"".toList ++ (v ++ ['"'])) ++ b := by
    rw [show "className=\"".toList = "className".toList ++ ['=', '"'] from by decide]
    simp
  have hq : jsOpen '"' = true := by decide
  rw [hsplit]
  simp only [matchJsAt, matchLitCI_append_self, hdw1, hdw2, htw, hq,
    eq_self_iff_true, if_true, List.drop_left]
  rw [hS2, take_heads]

theorem matchJsAt_consumes : ∀ {s mt v rest : List Char},
    matchJsAt s = some (mt, v, rest) → mt ++ rest = s ∧ rest.length < s.length := by
  intro s mt v rest h
  cases hm : matchLitCI "className".toList s with
  | none => simp only [matchJsAt, hm] at h; cases h
  | some s1 =>
    obtain ⟨hs1, hlen1⟩ := matchLitCI_suffix hm
    cases hd2 : s1.dropWhile isSpaceJS with
    | nil => simp only [matchJsAt, hm, hd2] at h; cases h
    | cons c2 s3 =>
      have hs3 : c2 :: s3 <:+ s1 := hd2 ▸ List.dropWhile_suffix isSpaceJS
      by_cases hc2 : c2 = '='
      · cases hd4 : s3.dropWhile isSpaceJS with
        | nil =>
          simp only [matchJsAt, hm, hd2, if_pos hc2, hd4] at h
          cases h
        | cons q s5 =>
          have hs5 : q :: s5 <:+ s3 := hd4 ▸ List.dropWhile_suffix isSpaceJS
          by_cases hq : jsOpen q = true
          · cases hd6 : s5.drop ((s5.takeWhile (fun c => !jsValStop c)).length) with
            | nil =>
              simp only [matchJsAt, hm, hd2, if_pos hc2, hd4, if_pos hq, hd6] at h
              cases h
            | cons q2 rest2 =>
              simp only [matchJsAt, hm, hd2, if_pos hc2, hd4, if_pos hq, hd6,
                Option.some.injEq, Prod.mk.injEq] at h
              obtain ⟨hmt, -, hrest⟩ := h
              subst hrest
              have h6 : q2 :: rest2 <:+ s5 := hd6 ▸ List.drop_suffix _ s5
              have hrs : rest2 <:+ s :=
                (((List.suffix_cons q2 rest2).trans h6).trans
                  (((List.suffix_cons q s5).trans hs5).trans
                    (((List.suffix_cons c2 s3).trans hs3).trans hs1)))
              constructor
              · rw [← hmt]
                exact suffix_take_append hrs
              · have l2 : (q2 :: rest2).length ≤ s5.length := h6.length_le
                have l3 : (q :: s5).length ≤ s3.length := hs5.length_le
                have l4 : (c2 :: s3).length ≤ s1.length := hs3.length_le
                have l5 : s1.length < s.length := by
                  have : ("className".toList).length = 9 := by decide
                  omega
                simp only [List.length_cons] at l2 l3 l4
                omega
          · simp only [matchJsAt, hm, hd2, if_pos hc2, hd4, if_neg hq] at h
            cases h
      · simp only [matchJsAt, hm, hd2, if_neg hc2] at h
        cases h

theorem replaceJsGo_fuel_irrel {pfx : List Char} {ign : List (List Char)} :
    ∀ f1 f2 s, s.length ≤ f1 → s.length ≤ f2 →
      replaceJsGo pfx ign f1 s = replaceJsGo pfx ign f2 s := by
  intro f1
  induction f1 with
  | zero =>
    intro f2 s h1 _
    have : s = [] := List.eq_nil_of_length_eq_zero (Nat.le_zero.mp h1)
    subst this
    cases f2 <;> rfl
  | succ f1 ih =>
    intro f2 s h1 h2
    cases s with
    | nil => cases f2 <;> rfl
    | cons c t =>
      cases f2 with
      | zero => simp at h2
      | succ f2 =>
        cases hm : matchJsAt (c :: t) with
        | some q =>
          obtain ⟨mt, v, rest⟩ := q
          have hcons := matchJsAt_consumes hm
          have hIH : replaceJsGo pfx ign f1 rest = replaceJsGo pfx ign f2 rest := by
            have := hcons.2
            simp only [List.length_cons] at h1 h2 this
            exact ih f2 rest (by omega) (by omega)
          simp only [replaceJsGo, hm, hIH]
        | none =>
          have hIH : replaceJsGo pfx ign f1 t = replaceJsGo pfx ign f2 t := by
            simp only [List.length_cons] at h1 h2
            exact ih f2 t (by omega) (by omega)
          simp only [replaceJsGo, hm, hIH]

theorem replaceJsGo_scan {pfx : List Char} {ign : List (List Char)} {v b : List Char}
    (hv : ∀ x ∈ v, jsValStop x = false) :
    ∀ (a : List Char) (fuel : Nat), (∀ x ∈ a, x.toLower ≠ 'c') →
    (a ++ ("className=\"".toList ++ (v ++ '"' :: b))).length ≤ fuel →
    replaceJsGo pfx ign fuel (a ++ ("className=\"".toList ++ (v ++ '"' :: b)))
      = a ++ (jsCallback pfx ign ("className=\"".toList ++ (v ++ ['"'])) v
          ++ processJsClasses pfx ign b) := by
  intro a
  induction a with
  | nil =>
    intro fuel _ hlen
    simp only [List.nil_append] at hlen ⊢
    cases fuel with
    | zero => simp at hlen
    | succ fuel =>
      rw [show "className=\"".toList ++ (v ++ '"' :: b)
          = 'c' :: ("lassName=\"".toList ++ (v ++ '"' :: b)) from by
        rw [show "className=\"".toList = 'c' :: "lassName=\"".toList from by decide]
        simp]
      simp only [replaceJsGo]
      rw [show 'c' :: ("lassName=\"".toList ++ (v ++ '"' :: b))
          = "className=\"".toList ++ (v ++ '"' :: b) from by
        rw [show "className=\"".toList = 'c' :: "lassName=\"".toList from by decide]
        simp]
      rw [matchJsAt_region hv]
      have hfb : b.length ≤ fuel := by
        have : ("className=\"".toList).length = 11 := by decide
        simp only [List.length_append, List.length_cons] at hlen
        omega
      show jsCallback pfx ign ("className=\"".toList ++ (v ++ ['"'])) v
            ++ replaceJsGo pfx ign fuel b
          = jsCallback pfx ign ("className=\"".toList ++ (v ++ ['"'])) v
            ++ processJsClasses pfx ign b
      rw [replaceJsGo_fuel_irrel fuel b.length b hfb le_rfl]
      rfl
  | cons x a' ih =>
    intro fuel hA hlen
    cases fuel with
    | zero => simp at hlen
    | succ fuel =>
      simp only [List.cons_append, replaceJsGo,
        matchJsAt_none_head (hA x (List.mem_cons_self x a'))]
      rw [ih fuel (fun y hy => hA y (List.mem_cons_of_mem x hy)) (by
        simp only [List.cons_append, List.length_cons] at hlen
        omega)]

/-- **C7** Script extractor refusal: for a matched `className` region whose
captured value contains `$\x7b` (template interpolation) or `?` (conditional
expression), the whole match is returned unchanged — no token of it is
rewritten — and scanning continues after it. -/
theorem processJsClasses_refusal (pfx : List Char) (ign : List (List Char))
    (a v b : List Char)
    (hA : ∀ x ∈ a, x.toLower ≠ 'c')
    (hv : ∀ x ∈ v, jsValStop x = false)
    (hdyn : isSubstr "$\x7b".toList v = true ∨ v.contains '?' = true) :
    processJsClasses pfx ign (a ++ ("className=\"".toList ++ (v ++ '"' :: b)))
      = a ++ ("className=\"".toList ++ (v ++ '"' :: processJsClasses pfx ign b)) := by
  have hcb : jsCallback pfx ign ("className=\"".toList ++ (v ++ ['"'])) v
      = "className=\"".toList ++ (v ++ ['"']) := by
    have hcond : (isSubstr "$\x7b".toList v || v.contains '?') = true := by
      rcases hdyn with h | h
      · rw [h, Bool.true_or]
      · rw [h, Bool.or_true]
    simp only [jsCallback]
    rw [if_pos hcond]
  show replaceJsGo pfx ign (a ++ ("className=\"".toList ++ (v ++ '"' :: b))).length
      (a ++ ("className=\"".toList ++ (v ++ '"' :: b))) = _
  rw [replaceJsGo_scan hv a _ hA le_rfl, hcb]
  simp [List.append_assoc]

/-- Witness for C7 at a concrete conditional class expression. -/
theorem processJsClasses_refusal_witness :
    processJsClasses "tw-".toList defaultIgnore "q className=\"a?b\";".toList
      = "q className=\"a?b\";".toList := by
  have h := processJsClasses_refusal "tw-".toList defaultIgnore
    "q ".toList "a?b".toList ";".toList (by decide) (by decide) (Or.inr (by decide))
  rw [show "q className=\"a?b\";".toList
      = "q ".toList ++ ("className=\"".toList ++ ("a?b".toList ++ '"' :: ";".toList))
    from by decide]
  rw [h]
  decide

/-! ## The stylesheet apply-directive extractor (C6) -/

theorem matchApplyAt_none_head {x : Char} {t : List Char} (hx : x ≠ '@') :
    matchApplyAt (x :: t) = none := by
  have h1 : matchLit "@apply".toList (x :: t) = none := by
    show matchLit ('@' :: "apply".toList) (x :: t) = none
    simp only [matchLit]
    rw [if_neg (fun h => hx h.symm)]
  simp only [matchApplyAt, h1]

theorem matchApplyAt_region {v b : List Char}
    (hvhead : ∃ c t, v = c :: t ∧ isSpaceJS c = false)
    (hv : ∀ x ∈ v, isApplyStop x = false) :
    matchApplyAt ("@apply ".toList ++ (v ++ ';' :: b)) = some (v, b) := by
  obtain ⟨c, t, rfl, hcsp⟩ := hvhead
  have hcstop : isApplyStop c = false := hv c (List.mem_cons_self c t)
  have hsplit : "@apply ".toList ++ ((c :: t) ++ ';' :: b)
      = "@apply".toList ++ (' ' :: c :: (t ++ ';' :: b)) := by
    rw [show "@apply ".toList = "@apply".toList ++ [' '] from by decide]
    simp
  have hw : (' ' :: c :: (t ++ ';' :: b)).takeWhile isSpaceJS = [' '] := by
    rw [List.takeWhile_cons, if_pos (by decide), List.takeWhile_cons,
      if_neg (by simp [hcsp])]
  have hie : ([' '] : List Char).isEmpty = false := rfl
  have hd1 : List.drop ([' '] : List Char).length (' ' :: c :: (t ++ ';' :: b))
      = c :: (t ++ ';' :: b) := rfl
  have htw : (c :: (t ++ ';' :: b)).takeWhile (fun d => !isApplyStop d) = c :: t := by
    rw [← List.cons_append]
    refine takeWhile_append_stop ?_ (Or.inr ⟨';', b, rfl, by decide⟩)
    intro x hx
    simp [hv x hx]
  have hd2 : List.drop ((c :: t) : List Char).length (c :: (t ++ ';' :: b))
      = ';' :: b := by
    rw [List.length_cons, List.drop_succ_cons, List.drop_left]
  rw [hsplit]
  simp only [matchApplyAt, matchLit_append_self, hw, hie, hd1, htw, hd2,
    hcstop, Bool.false_eq_true, if_false, eq_self_iff_true, if_true]

theorem matchApplyAt_consumes : ∀ {s v rest : List Char},
    matchApplyAt s = some (v, rest) → rest <:+ s ∧ rest.length < s.length := by
  intro s v rest h
  cases hm : matchLit "@apply".toList s with
  | none => simp only [matchApplyAt, hm] at h; cases h
  | some s1 =>
    obtain ⟨hs1, hlen1⟩ := matchLit_suffix hm
    have hlen6 : s1.length + 6 = s.length := by
      have : ("@apply".toList).length = 6 := by decide
      omega
    have hrs1 : s1.drop ((s1.takeWhile isSpaceJS).length) <:+ s1 := List.drop_suffix _ s1
    by_cases hw : (s1.takeWhile isSpaceJS).isEmpty = true
    · simp only [matchApplyAt, hm, if_pos hw] at h
      cases h
    · cases hr : s1.drop ((s1.takeWhile isSpaceJS).length) with
      | nil =>
        by_cases h2 : 2 ≤ (s1.takeWhile isSpaceJS).length
        · simp only [matchApplyAt, hm, if_neg hw, hr, if_pos h2,
            Option.some.injEq, Prod.mk.injEq] at h
          obtain ⟨-, hrest⟩ := h
          subst hrest
          exact ⟨List.nil_suffix, by simp; omega⟩
        · simp only [matchApplyAt, hm, if_neg hw, hr, if_neg h2] at h
          cases h
      | cons c t =>
        have hct : c :: t <:+ s := (hr ▸ hrs1).trans hs1
        have hts : t <:+ s := (List.suffix_cons c t).trans hct
        have hlct : (c :: t).length ≤ s1.length := by
          have := (hr ▸ hrs1 : c :: t <:+ s1)
          exact this.length_le
        by_cases hstop : isApplyStop c = true
        · by_cases h2 : 2 ≤ (s1.takeWhile isSpaceJS).length
          · by_cases hsemi : c = ';'
            · simp only [matchApplyAt, hm, if_neg hw, hr, if_pos hstop,
                if_pos h2, if_pos hsemi, Option.some.injEq, Prod.mk.injEq] at h
              obtain ⟨-, hrest⟩ := h
              subst hrest
              refine ⟨hts, ?_⟩
              have := hts.length_le
              simp only [List.length_cons] at hlct
              omega
            · simp only [matchApplyAt, hm, if_neg hw, hr, if_pos hstop,
                if_pos h2, if_neg hsemi, Option.some.injEq, Prod.mk.injEq] at h
              obtain ⟨-, hrest⟩ := h
              subst hrest
              refine ⟨hct, ?_⟩
              simp only [List.length_cons] at hlct ⊢
              omega
          · simp only [matchApplyAt, hm, if_neg hw, hr, if_pos hstop,
              if_neg h2] at h
            cases h
        · cases hd : (c :: t).drop
              (((c :: t).takeWhile (fun d => !isApplyStop d)).length) with
          | nil =>
            simp only [matchApplyAt, hm, if_neg hw, hr, if_neg hstop, hd,
              Option.some.injEq, Prod.mk.injEq] at h
            obtain ⟨-, hrest⟩ := h
            subst hrest
            refine ⟨List.nil_suffix, ?_⟩
            simp only [List.length_cons] at hlct
            simp
            omega
          | cons c2 rest2 =>
            have hdsuf : c2 :: rest2 <:+ c :: t := hd ▸ List.drop_suffix _ (c :: t)
            have hcr : c2 :: rest2 <:+ s := hdsuf.trans hct
            have hdle : (c2 :: rest2).length ≤ (c :: t).length := hdsuf.length_le
            by_cases hsemi : c2 = ';'
            · simp only [matchApplyAt, hm, if_neg hw, hr, if_neg hstop, hd,
                if_pos hsemi, Option.some.injEq, Prod.mk.injEq] at h
              obtain ⟨-, hrest⟩ := h
              subst hrest
              refine ⟨(List.suffix_cons c2 rest2).trans hcr, ?_⟩
              simp only [List.length_cons] at hdle hlct
              omega
            · simp only [matchApplyAt, hm, if_neg hw, hr, if_neg hstop, hd,
                if_neg hsemi, Option.some.injEq, Prod.mk.injEq] at h
              obtain ⟨-, hrest⟩ := h
              subst hrest
              refine ⟨hcr, ?_⟩
              simp only [List.length_cons] at hdle hlct ⊢
              omega

theorem replaceApplyGo_fuel_irrel {pfx : List Char} {ign : List (List Char)} :
    ∀ f1 f2 s, s.length ≤ f1 → s.length ≤ f2 →
      replaceApplyGo pfx ign f1 s = replaceApplyGo pfx ign f2 s := by
  intro f1
  induction f1 with
  | zero =>
    intro f2 s h1 _
    have : s = [] := List.eq_nil_of_length_eq_zero (Nat.le_zero.mp h1)
    subst this
    cases f2 <;> rfl
  | succ f1 ih =>
    intro f2 s h1 h2
    cases s with
    | nil => cases f2 <;> rfl
    | cons c t =>
      cases f2 with
      | zero => simp at h2
      | succ f2 =>
        cases hm : matchApplyAt (c :: t) with
        | some q =>
          obtain ⟨v, rest⟩ := q
          have hcons := matchApplyAt_consumes hm
          have hIH : replaceApplyGo pfx ign f1 rest = replaceApplyGo pfx ign f2 rest := by
            have := hcons.2
            simp only [List.length_cons] at h1 h2 this
            exact ih f2 rest (by omega) (by omega)
          simp only [replaceApplyGo, hm, hIH]
        | none =>
          have hIH : replaceApplyGo pfx ign f1 t = replaceApplyGo pfx ign f2 t := by
            simp only [List.length_cons] at h1 h2
            exact ih f2 t (by omega) (by omega)
          simp only [replaceApplyGo, hm, hIH]

theorem replaceApplyGo_scan {pfx : List Char} {ign : List (List Char)} {v b : List Char}
    (hvhead : ∃ c t, v = c :: t ∧ isSpaceJS c = false)
    (hv : ∀ x ∈ v, isApplyStop x = false) :
    ∀ (a : List Char) (fuel : Nat), '@' ∉ a →
    (a ++ ("@apply ".toList ++ (v ++ ';' :: b))).length ≤ fuel →
    replaceApplyGo pfx ign fuel (a ++ ("@apply ".toList ++ (v ++ ';' :: b)))
      = a ++ (applyCallback pfx ign v ++ replaceApplyCore pfx ign b) := by
  intro a
  induction a with
  | nil =>
    intro fuel _ hlen
    simp only [List.nil_append] at hlen ⊢
    cases fuel with
    | zero => simp at hlen
    | succ fuel =>
      rw [show "@apply ".toList ++ (v ++ ';' :: b)
          = '@' :: ("apply ".toList ++ (v ++ ';' :: b)) from by
        rw [show "@apply ".toList = '@' :: "apply ".toList from by decide]
        simp]
      simp only [replaceApplyGo]
      rw [show '@' :: ("apply ".toList ++ (v ++ ';' :: b))
          = "@apply ".toList ++ (v ++ ';' :: b) from by
        rw [show "@apply ".toList = '@' :: "apply ".toList from by decide]
        simp]
      rw [matchApplyAt_region hvhead hv]
      have hfb : b.length ≤ fuel := by
        have : ("@apply ".toList).length = 7 := by decide
        simp only [List.length_append, List.length_cons] at hlen
        omega
      show applyCallback pfx ign v ++ replaceApplyGo pfx ign fuel b
          = applyCallback pfx ign v ++ replaceApplyCore pfx ign b
      rw [replaceApplyGo_fuel_irrel fuel b.length b hfb le_rfl]
      rfl
  | cons x a' ih =>
    intro fuel hA hlen
    have hx : x ≠ '@' := fun hxa => hA (hxa ▸ List.mem_cons_self x a')
    cases fuel with
    | zero => simp at hlen
    | succ fuel =>
      simp only [List.cons_append, replaceApplyGo, matchApplyAt_none_head hx]
      rw [ih fuel (fun hy => hA (List.mem_cons_of_mem x hy)) (by
        simp only [List.cons_append, List.length_cons] at hlen
        omega)]

/-- **C6** Apply-directive processing: each whitespace-separated token of a
matched `@apply <classlist>` region is rewritten by `addPrefixToClass` unless
it contains a brace (then kept verbatim); the region is replaced by
`@apply <tokens>;`; and, as witnessed by the concrete scenarios (run through
the full `processApplyDirectives` including the final collapse pass), runs of
consecutive semicolons produced by the substitution collapse to one, and
`@apply flex items-center;` with prefix `tw-` yields
`@apply tw-flex tw-items-center;`. -/
theorem processApplyDirectives_spec :
    (∀ (pfx : List Char) (ign : List (List Char)) (a v b : List Char),
      '@' ∉ a →
      (∃ c t, v = c :: t ∧ isSpaceJS c = false) →
      (∀ x ∈ v, isApplyStop x = false) →
      replaceApplyCore pfx ign (a ++ ("@apply ".toList ++ (v ++ ';' :: b)))
        = a ++ ("@apply ".toList
            ++ (joinSpace ((splitWs v).map (fun cn =>
                  if cn.contains (Char.ofNat 123) || cn.contains (Char.ofNat 125)
                  then cn else addPrefixToClass pfx ign cn))
                ++ ';' :: replaceApplyCore pfx ign b))) ∧
    processApplyDirectives "tw-".toList defaultIgnore
        "@apply flex items-center;".toList
      = "@apply tw-flex tw-items-center;".toList ∧
    processApplyDirectives "tw-".toList defaultIgnore "@apply flex;;".toList
      = "@apply tw-flex;".toList := by
  refine ⟨?_, by decide, by decide⟩
  intro pfx ign a v b hA hvhead hv
  show replaceApplyGo pfx ign (a ++ ("@apply ".toList ++ (v ++ ';' :: b))).length
      (a ++ ("@apply ".toList ++ (v ++ ';' :: b))) = _
  rw [replaceApplyGo_scan hvhead hv a _ hA le_rfl]
  simp [applyCallback, List.append_assoc]

/-- Witness for C6 at a concrete stylesheet fragment with surrounding text. -/
theorem processApplyDirectives_spec_witness :
    replaceApplyCore "tw-".toList defaultIgnore "p; @apply flex; q".toList
        = "p; @apply tw-flex; q".toList ∧
      processApplyDirectives "tw-".toList defaultIgnore
          "@apply flex items-center;".toList
        = "@apply tw-flex tw-items-center;".toList := by
  constructor
  · have h := processApplyDirectives_spec.1 "tw-".toList defaultIgnore
      "p; ".toList "flex".toList " q".toList (by decide)
      ⟨'f', "lex".toList, by decide, by decide⟩ (by decide)
    rw [show "p; @apply flex; q".toList
        = "p; ".toList ++ ("@apply ".toList ++ ("flex".toList ++ ';' :: " q".toList))
      from by decide]
    rw [h]
    decide
  · exact processApplyDirectives_spec.2.1

/-! ## The stylesheet selector extractor (C5) -/

/-- The original character just before the resumption point after scanning
`a` (or `prev` when `a` is empty). -/
def lastPrev (a : List Char) (prev : Option Char) : Option Char :=
  match a.getLast? with
  | some d => some d
  | none => prev

theorem lastPrev_cons (x : Char) (a' : List Char) (prev : Option Char) :
    lastPrev (x :: a') prev = lastPrev a' (some x) := by
  cases a' with
  | nil => rfl
  | cons y t =>
    simp only [lastPrev, List.getLast?_cons_cons]
    cases h : (y :: t).getLast? with
    | none => simp at h
    | some d => rfl

theorem lastPrev_concat (a' : List Char) (d : Char) (prev : Option Char) :
    lastPrev (a' ++ [d]) prev = some d := by
  simp [lastPrev, List.getLast?_concat]

theorem cssSelCallback_eq (pfx : List Char) (ign : List (List Char)) (run : List Char) :
    cssSelCallback pfx ign run
      = if ign.contains run || List.isPrefixOf pfx run
        then '.' :: run else '.' :: (pfx ++ run) := by
  by_cases h1 : ign.contains run = true <;>
    by_cases h2 : List.isPrefixOf pfx run = true <;>
      simp [cssSelCallback, h1, h2]

theorem replaceCssSelGo_fuel_irrel {pfx : List Char} {ign : List (List Char)} :
    ∀ f1 f2 (prev : Option Char) s, s.length ≤ f1 → s.length ≤ f2 →
      replaceCssSelGo pfx ign f1 prev s = replaceCssSelGo pfx ign f2 prev s := by
  intro f1
  induction f1 with
  | zero =>
    intro f2 prev s h1 _
    have : s = [] := List.eq_nil_of_length_eq_zero (Nat.le_zero.mp h1)
    subst this
    cases f2 <;> rfl
  | succ f1 ih =>
    intro f2 prev s h1 h2
    cases s with
    | nil => cases f2 <;> rfl
    | cons c t =>
      cases f2 with
      | zero => simp at h2
      | succ f2 =>
        simp only [List.length_cons] at h1 h2
        by_cases hc : (decide (c = '.') && lookbehindOk prev) = true
        · by_cases hrun : (t.takeWhile isSelChar).isEmpty = true
          · have hIH : replaceCssSelGo pfx ign f1 (some '.') t
                = replaceCssSelGo pfx ign f2 (some '.') t :=
              ih f2 (some '.') t (by omega) (by omega)
            simp only [replaceCssSelGo, if_pos hc, if_pos hrun, hIH]
          · have hlen : (t.drop ((t.takeWhile isSelChar).length)).length ≤ t.length :=
              (List.drop_suffix _ t).length_le
            have hIH : replaceCssSelGo pfx ign f1 ((t.takeWhile isSelChar).getLast?)
                  (t.drop ((t.takeWhile isSelChar).length))
                = replaceCssSelGo pfx ign f2 ((t.takeWhile isSelChar).getLast?)
                  (t.drop ((t.takeWhile isSelChar).length)) :=
              ih f2 _ _ (by omega) (by omega)
            simp only [replaceCssSelGo, if_pos hc, if_neg hrun, hIH]
        · have hIH : replaceCssSelGo pfx ign f1 (some c) t
              = replaceCssSelGo pfx ign f2 (some c) t :=
            ih f2 (some c) t (by omega) (by omega)
          simp only [replaceCssSelGo, if_neg hc, hIH]

theorem replaceCssSelGo_scan {pfx : List Char} {ign : List (List Char)} {c b : List Char}
    (hc0 : c ≠ []) (hcs : ∀ x ∈ c, isSelChar x = true)
    (hb : b = [] ∨ ∃ e b', b = e :: b' ∧ isSelChar e = false) :
    ∀ (a : List Char) (prev : Option Char) (fuel : Nat), '.' ∉ a →
    lookbehindOk (lastPrev a prev) = true →
    (a ++ '.' :: (c ++ b)).length ≤ fuel →
    replaceCssSelGo pfx ign fuel prev (a ++ '.' :: (c ++ b))
      = a ++ (cssSelCallback pfx ign c
          ++ replaceCssSelGo pfx ign b.length c.getLast? b) := by
  intro a
  induction a with
  | nil =>
    intro prev fuel _ hlb hlen
    simp only [List.nil_append] at hlb hlen ⊢
    cases fuel with
    | zero => simp at hlen
    | succ fuel =>
      have hlb' : lookbehindOk prev = true := by simpa [lastPrev] using hlb
      have hrun : (c ++ b).takeWhile isSelChar = c := takeWhile_append_stop hcs hb
      obtain ⟨c0, ct, rfl⟩ := List.exists_cons_of_ne_nil hc0
      have hie : ((c0 :: ct : List Char)).isEmpty = false := rfl
      simp only [replaceCssSelGo, hrun, hie, Bool.false_eq_true,
        if_false, List.drop_left]
      have hfb : b.length ≤ fuel := by
        simp only [List.length_cons, List.length_append] at hlen
        omega
      rw [replaceCssSelGo_fuel_irrel fuel b.length _ b hfb le_rfl]
      rw [if_pos (by simp [hlb'])]
  | cons x a' ih =>
    intro prev fuel hA hlb hlen
    have hx : x ≠ '.' := fun hxa => hA (hxa ▸ List.mem_cons_self x a')
    cases fuel with
    | zero => simp at hlen
    | succ fuel =>
      have hcond : (decide (x = '.') && lookbehindOk prev) = false := by
        rw [decide_eq_false hx, Bool.false_and]
      simp only [List.cons_append, replaceCssSelGo, hcond, Bool.false_eq_true,
        if_false]
      rw [ih (some x) fuel (fun hy => hA (List.mem_cons_of_mem x hy))
        (by rw [← lastPrev_cons x a' prev]; exact hlb)
        (by simp only [List.cons_append, List.length_cons] at hlen; omega)]

/-- **C5** Stylesheet selector path: a `.name` occurrence preceded by start of
input, whitespace, a comma or an opening brace, with `name` a maximal run of
`[A-Za-z0-9_-]`, is left unchanged when `name` is in the ignore list or
already starts with the prefix string, and otherwise becomes `.prefix+name`;
the full classifier is NOT consulted on this path (witnessed by `.my_snake`,
which the classifier would reject, still being rewritten). -/
theorem processCssSelectors_spec :
    (∀ (pfx : List Char) (ign : List (List Char)) (a c b : List Char),
      '.' ∉ a →
      (a = [] ∨ ∃ d a', a = a' ++ [d] ∧ lookbehindOk (some d) = true) →
      c ≠ [] → (∀ x ∈ c, isSelChar x = true) →
      (b = [] ∨ ∃ e b', b = e :: b' ∧ isSelChar e = false) →
      processCssSelectors pfx ign (a ++ '.' :: (c ++ b))
        = a ++ ((if ign.contains c || List.isPrefixOf pfx c
              then '.' :: c else '.' :: (pfx ++ c))
            ++ replaceCssSelGo pfx ign b.length c.getLast? b)) ∧
    (processCssSelectors "tw-".toList defaultIgnore ".my_snake".toList
        = ".tw-my_snake".toList ∧
      isNotTailwindClass defaultIgnore "my_snake".toList = true) ∧
    processCssSelectors "tw-".toList defaultIgnore ".swiper".toList
      = ".swiper".toList ∧
    processCssSelectors "tw-".toList defaultIgnore ".tw-btn".toList
      = ".tw-btn".toList := by
  refine ⟨?_, ⟨by decide, by decide⟩, by decide, by decide⟩
  intro pfx ign a c b hA hend hc0 hcs hb
  have hlb : lookbehindOk (lastPrev a none) = true := by
    rcases hend with rfl | ⟨d, a', rfl, hd⟩
    · rfl
    · rw [lastPrev_concat]
      exact hd
  show replaceCssSelGo pfx ign (a ++ '.' :: (c ++ b)).length none (a ++ '.' :: (c ++ b))
      = _
  rw [replaceCssSelGo_scan hc0 hcs hb a none _ hA hlb le_rfl, cssSelCallback_eq]

/-- Witness for C5 at a concrete selector with leading context. -/
theorem processCssSelectors_spec_witness :
    processCssSelectors "tw-".toList defaultIgnore "h1, .btn ".toList
      = "h1, .tw-btn ".toList := by
  have h := processCssSelectors_spec.1 "tw-".toList defaultIgnore
    "h1, ".toList "btn".toList " ".toList (by decide)
    (Or.inr ⟨' ', "h1,".toList, by decide, by decide⟩)
    (by decide) (by decide) (Or.inr ⟨' ', [], by decide, by decide⟩)
  rw [show "h1, .btn ".toList
      = "h1, ".toList ++ '.' :: ("btn".toList ++ " ".toList) from by decide]
  rw [h]
  decide

/-! ## Configuration validation (C9) -/

/-- The throw condition exactly as the claim states it: a provided prefix
that is not a string or whose string fails the regex after stripping one
trailing hyphen, a provided non-string sourceDir, or a provided logLevel not
among the five names. -/
def claimThrowCond (o : Options) : Bool :=
  (match o.pfx with
   | JsArg.absent => false
   | JsArg.jstr s => !prefixRegexOk s
   | JsArg.nonString _ => true) ||
  (match o.sourceDir with
   | JsArg.absent => false
   | JsArg.jstr _ => false
   | JsArg.nonString _ => true) ||
  (match o.logLevel with
   | JsArg.absent => false
   | JsArg.jstr s => !(logLevelNames.contains s)
   | JsArg.nonString _ => true)

/-- **C9 (counterexample)** With a provided empty-string prefix, the claim
says construction throws (the empty string fails `^[A-Za-z0-9_-]+$` after
stripping a trailing hyphen), but the code's JS truthiness guard
(`options.prefix && …`) skips the check on the falsy empty string and the
options are accepted. -/
theorem validateOptions_empty_prefix_cex :
    validateThrows ⟨JsArg.jstr [], JsArg.absent, JsArg.absent⟩ = false ∧
      claimThrowCond ⟨JsArg.jstr [], JsArg.absent, JsArg.absent⟩ = true ∧
      validateThrows ⟨JsArg.jstr [], JsArg.absent, JsArg.absent⟩
        ≠ claimThrowCond ⟨JsArg.jstr [], JsArg.absent, JsArg.absent⟩ := by decide

/-- The amended throw condition: each check is gated by JS truthiness
(`options.x && …`), so an empty-string or falsy non-string value is skipped. -/
def amendedThrowCond (o : Options) : Bool :=
  pfxNotString o || (pfxBadFormat o || (sourceDirNotString o || logLevelBad o))

/-- **C9 (amended)** Construction rejects the options exactly when a provided
truthy (non-empty) prefix is not a string or fails `^[A-Za-z0-9_-]+$` after
stripping one trailing hyphen, or a provided truthy sourceDir is not a string,
or a provided truthy logLevel is not one of silent/error/warn/info/debug; the
model's other operations are total functions that never raise. -/
theorem validateOptions_spec (o : Options) :
    validateThrows o = amendedThrowCond o := by
  cases h1 : pfxNotString o <;> cases h2 : pfxBadFormat o <;>
    cases h3 : sourceDirNotString o <;> cases h4 : logLevelBad o <;>
      simp [validateThrows, validateOptions, amendedThrowCond, h1, h2, h3, h4]

/-! ## Concrete evaluations of the embedding

These check the model against the behaviour documented in the source (in
particular the examples of its `testLogic` method and of the README). -/

example : processHtmlClasses "tw-".toList defaultIgnore
    "<div class=\"bg-red-500 hover:bg-red-600 myComponent\">".toList
    = "<div class=\"tw-bg-red-500 hover:tw-bg-red-600 myComponent\">".toList := by decide
example : processHtmlClasses "tw-".toList defaultIgnore "<p class=\"lass\">".toList
    = "<p ctw-lass=\"lass\">".toList := by decide
example : processHtmlClasses "tw-".toList defaultIgnore "<p class=\"a  b\">".toList
    = "<p class=\"a b\">".toList := by decide
example : processHtmlClasses "tw-".toList defaultIgnore "<p class=\"myClass$&\">".toList
    = "<p class=\"myClassmyClass$&\">".toList := by decide
example : getSubstitution "ab".toList "x".toList "y".toList "$$-$&-$1".toList
    = "$-ab-$1".toList := by decide
example : getSubstitution "m".toList "AB".toList "CD".toList "u$`v$'w$".toList
    = "uABvCDw$".toList := by decide
example : processApplyDirectives "tw-".toList defaultIgnore
    "@apply flex items-center;".toList
    = "@apply tw-flex tw-items-center;".toList := by decide
example : processApplyDirectives "tw-".toList defaultIgnore "a;;b".toList
    = "a;b".toList := by decide
example : processCssSelectors "tw-".toList defaultIgnore ".btn, .active".toList
    = ".tw-btn, .tw-active".toList := by decide
example : processCssSelectors "tw-".toList defaultIgnore ".my_snake".toList
    = ".tw-my_snake".toList := by decide
example : processCssSelectors "tw-".toList defaultIgnore ".swiper".toList
    = ".swiper".toList := by decide
example : processJsClasses "tw-".toList defaultIgnore
    "className=\"flex a?b\"".toList
    = "className=\"flex a?b\"".toList := by decide
example : processJsClasses "tw-".toList defaultIgnore
    "className=\"flex mt-4\"".toList
    = "className=\"tw-flex tw-mt-4\"".toList := by decide
example : validateOptions ⟨JsArg.jstr [], JsArg.absent, JsArg.absent⟩ = .ok () := rfl
example : validateThrows ⟨JsArg.jstr "-".toList, JsArg.absent, JsArg.absent⟩ = true := by decide
example : validateThrows ⟨JsArg.jstr "tw-".toList, JsArg.absent, JsArg.jstr "info".toList⟩
    = false := by decide
example : validateThrows ⟨JsArg.jstr "tw-".toList, JsArg.absent, JsArg.jstr "verbose".toList⟩
    = true := by decide

example : addPrefixToClass "tw-".toList defaultIgnore "bg-red-500".toList
    = "tw-bg-red-500".toList := by decide
example : addPrefixToClass "tw-".toList defaultIgnore "hover:bg-red-500".toList
    = "hover:tw-bg-red-500".toList := by decide
example : addPrefixToClass "tw-".toList defaultIgnore "md:hover:bg-red-500".toList
    = "md:hover:tw-bg-red-500".toList := by decide
example : addPrefixToClass "tw-".toList defaultIgnore "!-mt-4".toList
    = "!tw--mt-4".toList := by decide
example : addPrefixToClass "tw-".toList defaultIgnore "hover:!-translate-x-2".toList
    = "hover:!tw--translate-x-2".toList := by decide
example : addPrefixToClass "tw-".toList defaultIgnore "w-[100px]".toList
    = "tw-w-[100px]".toList := by decide
example : addPrefixToClass "tw-".toList defaultIgnore "!-left-[60%]".toList
    = "!tw--left-[60%]".toList := by decide
example : addPrefixToClass "tw-".toList defaultIgnore "myCustomClass".toList
    = "myCustomClass".toList := by decide
example : addPrefixToClass "tw-".toList defaultIgnore "my_custom_class".toList
    = "my_custom_class".toList := by decide
example : addPrefixToClass "tw-".toList defaultIgnore "dark:hover:!-rotate-45".toList
    = "dark:hover:!tw--rotate-45".toList := by decide
example : addPrefixToClass "two-".toList defaultIgnore "two-bg-red-500".toList
    = "two-bg-red-500".toList := by decide
example : addPrefixToClass "tw-".toList defaultIgnore "group-hover:opacity-50".toList
    = "group-hover:tw-opacity-50".toList := by decide
example : addPrefixToClass "tw-".toList defaultIgnore "peer-focus:opacity-50".toList
    = "peer-focus:tw-opacity-50".toList := by decide
example : addPrefixToClass "tw-".toList defaultIgnore "swiper".toList
    = "swiper".toList := by decide
example : addPrefixToClass "tw-".toList defaultIgnore "grid-cols-[1fr_2fr]".toList
    = "tw-grid-cols-[1fr_2fr]".toList := by decide
